import Mathlib

/-!
Shallow embedding of `sdk.py`, a version manager for the Google App Engine
SDK ("sdkswitcher"), with proofs about its core operations: version
resolution, the installed-version registry, the activation symlink
protocol, the download fallback and filename sanitization.

Python strings are modelled as Lean `String`/`List Char`; the POSIX path
functions (`os.path.join`, `os.path.split`, ...) are translated from
CPython 2.7's `posixpath` (the platform the code targets); the filesystem,
the persisted configuration and the HTTP collaborators are modelled as
explicit state / response parameters, mirroring how the repository's own
test-suite mocks them (`os.walk`, `os.path.exists`, `urllib2.urlopen`).
Exceptions are modelled with `Except`; stateful operations return
`Except Err α × World` so that a raised exception still carries the
mutated state, as in Python.
-/

/-! ### Generic list helpers -/

/-- `takeWhile` over a concatenation whose first part wholly satisfies `p`
and whose second part starts with a failing element (or is empty). -/
theorem takeWhile_append_all {α : Type} (p : α → Bool) (as bs : List α)
    (ha : ∀ a ∈ as, p a = true)
    (hb : bs = [] ∨ ∃ c cs, bs = c :: cs ∧ p c = false) :
    (as ++ bs).takeWhile p = as := by
  induction as with
  | nil =>
    simp only [List.nil_append]
    rcases hb with rfl | ⟨c, cs, rfl, hc⟩
    · rfl
    · simp [List.takeWhile_cons, hc]
  | cons a as ih =>
    have hpa : p a = true := ha a (by simp)
    simp only [List.cons_append, List.takeWhile_cons, hpa, if_true]
    rw [ih (fun x hx => ha x (by simp [hx]))]

/-- `dropWhile` counterpart of `takeWhile_append_all`. -/
theorem dropWhile_append_all {α : Type} (p : α → Bool) (as bs : List α)
    (ha : ∀ a ∈ as, p a = true)
    (hb : bs = [] ∨ ∃ c cs, bs = c :: cs ∧ p c = false) :
    (as ++ bs).dropWhile p = bs := by
  induction as with
  | nil =>
    simp only [List.nil_append]
    rcases hb with rfl | ⟨c, cs, rfl, hc⟩
    · rfl
    · simp [List.dropWhile_cons, hc]
  | cons a as ih =>
    have hpa : p a = true := ha a (by simp)
    simp only [List.cons_append, List.dropWhile_cons, hpa, if_true]
    exact ih (fun x hx => ha x (by simp [hx]))

/-- The length of `dropWhile` never exceeds the input length. -/
theorem dropWhile_length_le {α : Type} (p : α → Bool) (l : List α) :
    (l.dropWhile p).length ≤ l.length := by
  induction l with
  | nil => simp [List.dropWhile]
  | cons a l ih =>
    by_cases h : p a
    · simp only [List.dropWhile_cons, h, if_true]
      exact Nat.le_succ_of_le ih
    · simp [List.dropWhile_cons, h]

/-! ### POSIX path functions, translated from CPython 2.7 `posixpath` -/

/-- `s.startswith('/')` for a POSIX path string. -/
def startsWithSlash (s : String) : Bool := s.data.head? = some '/'

/-- `s.endswith('/')` for a POSIX path string. -/
def endsWithSlash (s : String) : Bool := s.data.getLast? = some '/'

/-- Two-argument `posixpath.join`:
`if b.startswith('/'): b elif a == '' or a.endswith('/'): a + b else: a + '/' + b`. -/
def posixJoin (a b : String) : String :=
  if startsWithSlash b then b
  else if a = "" ∨ endsWithSlash a then a ++ b
  else a ++ "/" ++ b

/-- `posixpath.split` on the character list of a path: the tail is
everything after the last `'/'`; the head is everything up to and
including the last `'/'`, with trailing slashes stripped unless the head
consists only of slashes. -/
def pathSplitData (l : List Char) : List Char × List Char :=
  let tl := (l.reverse.takeWhile (fun c => !(c = '/'))).reverse
  let hd := (l.reverse.dropWhile (fun c => !(c = '/'))).reverse
  let hd := if hd ≠ [] ∧ hd.any (fun c => !(c = '/'))
            then (hd.reverse.dropWhile (fun c => c = '/')).reverse
            else hd
  (hd, tl)

/-- `os.path.split` (POSIX). -/
def pathSplit (p : String) : String × String :=
  let (hd, tl) := pathSplitData p.data
  (⟨hd⟩, ⟨tl⟩)

/-- `os.path.basename` (POSIX): the second component of `split`. -/
def pathBasename (p : String) : String := (pathSplit p).2

/-- `os.path.dirname` (POSIX): the first component of `split`. -/
def pathDirname (p : String) : String := (pathSplit p).1

/-- `str.split(sep)` on character lists: split at every separator,
keeping empty pieces (CPython `str.split` with an explicit separator). -/
def splitChar (sep : Char) : List Char → List (List Char)
  | [] => [[]]
  | c :: cs =>
    match splitChar sep cs with
    | [] => [[]]
    | g :: gs => if c = sep then [] :: g :: gs else (c :: g) :: gs

/-- One step of the component loop in `posixpath.normpath`. -/
def normStep (initialSlashes : Nat) (acc : List String) (comp : String) : List String :=
  if comp = "" ∨ comp = "." then acc
  else if comp ≠ ".." ∨ (initialSlashes = 0 ∧ acc = []) ∨ acc.getLast? = some ".."
  then acc ++ [comp]
  else if acc ≠ [] then acc.dropLast
  else acc

/-- Concatenate path components with `'/'` (`'/'.join(comps)`). -/
def joinSlash : List String → String
  | [] => ""
  | [s] => s
  | s :: rest => s ++ "/" ++ joinSlash rest

/-- `posixpath.normpath` (CPython 2.7). -/
def normpath (p : String) : String :=
  if p = "" then "." else
  let d := p.data
  let initialSlashes : Nat :=
    if d.head? = some '/' then
      (if d.take 2 = ['/', '/'] ∧ d.take 3 ≠ ['/', '/', '/'] then 2 else 1)
    else 0
  let comps : List String := (splitChar '/' d).map (fun g => ⟨g⟩)
  let newComps := comps.foldl (normStep initialSlashes) []
  let joined := joinSlash newComps
  let out := ⟨List.replicate initialSlashes '/' ++ joined.data⟩
  if out = "" then "." else out

/-- `posixpath.isabs`. -/
def isAbs (p : String) : Bool := startsWithSlash p

/-- `os.path.abspath` (POSIX), with the working directory passed
explicitly: join onto the cwd when relative, then normalize. -/
def abspath (cwd p : String) : String :=
  normpath (if isAbs p then p else posixJoin cwd p)

/-- Index of the first `'/'` in a character list, if any. -/
def slashIdx : List Char → Option Nat
  | [] => none
  | c :: cs => if c = '/' then some 0 else (slashIdx cs).map (· + 1)

/-- `str.rstrip('/')`. -/
def rstripSlashes (s : String) : String :=
  ⟨(s.data.reverse.dropWhile (fun c => c = '/')).reverse⟩

/-- `posixpath.expanduser` (CPython 2.7) with `$HOME` passed explicitly.
The `~user` form consults the pwd database (an external collaborator not
modelled here); it is treated as the lookup-failure branch, which returns
the path unchanged. -/
def expanduser (home path : String) : String :=
  if path.data.head? ≠ some '~' then path else
  let i : Nat :=
    match slashIdx (path.data.drop 1) with
    | some k => k + 1
    | none => path.data.length
  if i = 1 then
    let uh := rstripSlashes home
    let res : String := ⟨uh.data ++ path.data.drop i⟩
    if res = "" then "/" else res
  else path

/-! ### `safe_filename` (sdk.py lines 428-446) -/

/-- The character class `[-_.a-zA-Z0-9]` of `safe_filename`'s first regex. -/
def allowedCh (c : Char) : Bool :=
  c = '-' || c = '_' || c = '.' ||
  ('a' ≤ c && c ≤ 'z') || ('A' ≤ c && c ≤ 'Z') || ('0' ≤ c && c ≤ '9')

/-- `re.sub(r'[^-_.a-zA-Z0-9]+', '.', s)`: replace every maximal run of
disallowed characters by a single dot.  The boolean flag records whether
the previous character belonged to such a run. -/
def subBadRuns : Bool → List Char → List Char
  | _, [] => []
  | inRun, c :: cs =>
    if allowedCh c then c :: subBadRuns false cs
    else if inRun then subBadRuns true cs
    else '.' :: subBadRuns true cs

/-- `re.sub(r'\.+', '.', s)`: collapse runs of dots to a single dot.  The
boolean flag records whether the previous character was a dot. -/
def subDotRuns : Bool → List Char → List Char
  | _, [] => []
  | prevDot, c :: cs =>
    if c = '.' then (if prevDot then subDotRuns true cs else '.' :: subDotRuns true cs)
    else c :: subDotRuns false cs

/-- `str.strip(ch)`: remove the character from both ends. -/
def stripChar (ch : Char) (l : List Char) : List Char :=
  ((l.dropWhile (fun c => c = ch)).reverse.dropWhile (fun c => c = ch)).reverse

/-- `str.rpartition('/')[2]`: the part after the last slash, or the whole
string when it contains no slash. -/
def afterLastSlash (l : List Char) : List Char :=
  (l.reverse.takeWhile (fun c => !(c = '/'))).reverse

/-- `sdk.safe_filename`: strip slashes from the URL's ends, keep the part
after the last slash, replace runs of disallowed characters by dots,
collapse dot runs, strip dots from the ends; an empty result raises
`ValueError` (modelled as `Except.error`). -/
def safe_filename (url : String) : Except Unit String :=
  let u := stripChar '/' url.data
  let filename := afterLastSlash u
  let f1 := subBadRuns false filename
  let f2 := subDotRuns false f1
  let f3 := stripChar '.' f2
  if f3 = [] then .error () else .ok ⟨f3⟩

/-! ### The strict version pattern `^\d+\.\d+\.\d+$` (SDK_VERSION_PATTERN) -/

/-- Numeric value of a digit run (`int(...)` on a decimal string). -/
def digitsToNat (l : List Char) : Nat := l.foldl (fun n c => 10 * n + (c.toNat - 48)) 0

/-- Read a maximal nonempty digit run (`\d+`) from the front. -/
def readNat (l : List Char) : Option (Nat × List Char) :=
  match l.takeWhile Char.isDigit with
  | [] => none
  | _ => some (digitsToNat (l.takeWhile Char.isDigit), l.dropWhile Char.isDigit)

/-- Consume a literal `'.'`. -/
def expectDot : List Char → Option (List Char)
  | c :: r => if c = '.' then some r else none
  | [] => none

/-- Full match of `^\d+\.\d+\.\d+$`, returning the three numeric
components. -/
def parse3 (l : List Char) : Option (Nat × Nat × Nat) :=
  (readNat l).bind fun an =>
  (expectDot an.2).bind fun r2 =>
  (readNat r2).bind fun bn =>
  (expectDot bn.2).bind fun r4 =>
  (readNat r4).bind fun cn =>
  if cn.2 = [] then some (an.1, bn.1, cn.1) else none

/-- `SDK_VERSION_PATTERN.match(version)` as a boolean. -/
def isVersion (s : String) : Bool := (parse3 s.data).isSome

/-! ### `distutils.version.LooseVersion` and `list.sort` (for
`_get_installed_versions`, sdk.py lines 375-395) -/

/-- A LooseVersion component: digit runs become integers, everything else
stays a string. -/
inductive LVPart : Type
  | num (n : Nat)
  | str (s : String)
deriving DecidableEq

/-- A character of a separator run for `LooseVersion.component_re`:
not a digit, not a lowercase letter, not a dot. -/
def isSepCh (c : Char) : Bool := !(c.isDigit || c.isLower || c = '.')

/-- The kind of run a character belongs to in
`LooseVersion.component_re`: a digit run, a lowercase run, a separator
run, or (for `'.'`) none. -/
inductive RunTy : Type
  | dig
  | low
  | oth
deriving DecidableEq

/-- Classify one character. -/
def chTy (c : Char) : Option RunTy :=
  if c = '.' then none
  else if c.isDigit then some .dig
  else if c.isLower then some .low
  else some .oth

/-- Close a run accumulated in reverse: digit runs become integers
(`int(...)`), the rest stay strings. -/
def flushRun : RunTy → List Char → LVPart
  | .dig, acc => .num (digitsToNat acc.reverse)
  | .low, acc => .str ⟨acc.reverse⟩
  | .oth, acc => .str ⟨acc.reverse⟩

/-- `LooseVersion.parse`: split on `(\d+|[a-z]+|\.)`, drop empty pieces
and dots, convert digit runs to integers.  Implemented as a left-to-right
scan carrying the current maximal run (kind and characters, in reverse). -/
def lvTokensAux : Option (RunTy × List Char) → List Char → List LVPart
  | none, [] => []
  | some (t, acc), [] => [flushRun t acc]
  | none, c :: cs =>
    (match chTy c with
     | none => lvTokensAux none cs
     | some t => lvTokensAux (some (t, [c])) cs)
  | some (t, acc), c :: cs =>
    (match chTy c with
     | none => flushRun t acc :: lvTokensAux none cs
     | some t2 =>
       if t2 = t then lvTokensAux (some (t, c :: acc)) cs
       else flushRun t acc :: lvTokensAux (some (t2, [c])) cs)

/-- The token list of a version string. -/
def lvTokens (l : List Char) : List LVPart := lvTokensAux none l

/-- The LooseVersion key of a version string. -/
def lvKey (s : String) : List LVPart := lvTokens s.data

/-- Three-way comparison of lists given a comparison of elements
(CPython 2 sequence comparison: elementwise, then by length). -/
def listCmpWith {α : Type} (f : α → α → Ordering) : List α → List α → Ordering
  | [], [] => .eq
  | [], _ :: _ => .lt
  | _ :: _, [] => .gt
  | a :: as, b :: bs =>
    match f a b with
    | .eq => listCmpWith f as bs
    | o => o

/-- CPython 2 `str` comparison (byte-wise; our chars are compared by code
point, which coincides on ASCII). -/
def charCmp (a b : Char) : Ordering := compare a.toNat b.toNat

/-- CPython 2 comparison of LooseVersion components: `int` vs `int`
numerically, `str` vs `str` lexicographically, and `int < str` always
(Python 2 compares mixed types by type name, `'int' < 'str'`). -/
def lvPartCmp : LVPart → LVPart → Ordering
  | .num a, .num b => compare a b
  | .num _, .str _ => .lt
  | .str _, .num _ => .gt
  | .str a, .str b => listCmpWith charCmp a.data b.data

/-- Comparison of two version strings by their LooseVersion keys. -/
def lvCmpStr (a b : String) : Ordering := listCmpWith lvPartCmp (lvKey a) (lvKey b)

/-- The `≤` relation used by `versions.sort(key=LooseVersion)`. -/
def lvLE (a b : String) : Prop := lvCmpStr a b ≠ Ordering.gt

instance : DecidableRel lvLE := fun a b => inferInstanceAs (Decidable (¬ _ = _))

/-! ### The update-check collaborator `Env._check` (sdk.py lines 210-218) -/

/-- A word character for `re`'s `\b` on a byte string without
`re.UNICODE`: `[a-zA-Z0-9_]`. -/
def isWordCh (c : Char) : Bool :=
  ('a' ≤ c && c ≤ 'z') || ('A' ≤ c && c ≤ 'Z') || ('0' ≤ c && c ≤ '9') || c = '_'

/-- Attempt to match `release: "([^"]+)"` at the head of `l`, returning
group 1.  The greedy `[^"]+` takes the maximal quote-free run, which must
be nonempty and followed by a closing quote. -/
def releaseAt (l : List Char) : Option (List Char) :=
  let lit := "release: \"".data
  if lit.isPrefixOf l then
    let rest := l.drop lit.length
    let run := rest.takeWhile (fun c => !(c = '"'))
    if run ≠ [] ∧ (rest.drop run.length).head? = some '"' then some run else none
  else none

/-- `re.search` of `\brelease: "([^"]+)"` over one line: try every
position left to right; the word boundary requires the preceding
character (if any) to be a non-word character. -/
def releaseSearch (prevIsWord : Bool) : List Char → Option (List Char)
  | [] => none
  | c :: cs =>
    match (if prevIsWord then none else releaseAt (c :: cs)) with
    | some r => some r
    | none => releaseSearch (isWordCh c) cs

/-- `Env._check`, applied to the lines of the update-check HTTP response
(the network transport is the explicit `lines` argument): return group 1
of the first line matching the pattern; `None` when no line matches. -/
def checkFn (lines : List String) : Option String :=
  lines.findSome? (fun ln => (releaseSearch false ln.data).map (fun r => (⟨r⟩ : String)))

/-! ### Environment state: configuration, filesystem, world -/

/-- The `[DEFAULT]` section of `sdkswitcher.ini`: keys `link` and
`cache_dir` (built-in defaults `'~/'` and `''`). -/
structure Config where
  link : String
  cache_dir : String
deriving DecidableEq

/-- The built-in `Env.config_defaults`. -/
def defaultConfig : Config := ⟨"~/", ""⟩

/-- Ambient process state: `$HOME`, the working directory and
`sys.platform`. -/
structure Sys where
  home : String
  cwd : String
  platform : String
deriving DecidableEq

/-- The world the program mutates: the symlinks (path ↦ target), the
listing of the configured cache directory (`none` when the directory
does not exist; each immediate child carries the name and the result of
`os.path.exists(<child>/google_appengine)`), the persisted configuration
file, and the created temp files.  This mirrors exactly the pieces of
the OS the code touches (and the repository's tests mock). -/
structure World where
  links : List (String × String)
  cache : Option (List (String × Bool))
  saved : Option Config
  temp : List String
deriving DecidableEq

/-- Association-list lookup for symlinks (`os.readlink`, `None` when the
link does not exist, i.e. the `ENOENT` branch). -/
def lookupLink : List (String × String) → String → Option String
  | [], _ => none
  | (k, v) :: t, p => if k = p then some v else lookupLink t p

/-- Read a symlink's target, `none` when absent. -/
def readLink (w : World) (p : String) : Option String := lookupLink w.links p

/-- Errors: `BadVersionString` (sdk.py's `InvalidVersion`), OS errors
with their errno, the `assert` in `active_version`, `ValueError` from
`safe_filename`, `urllib2.HTTPError`/`URLError`, and the
`AttributeError` raised when `None` reaches `os.path.join`. -/
inductive ErrnoCode : Type
  | eexist
  | enoent
deriving DecidableEq

inductive Err : Type
  | badVersionString
  | osError (code : ErrnoCode)
  | assertionError
  | valueError
  | httpError (code : Nat)
  | urlError
  | attributeError
deriving DecidableEq

instance : DecidableEq (Except Err String) := fun a b =>
  match a, b with
  | .ok x, .ok y => if h : x = y then .isTrue (by rw [h]) else .isFalse (by simp [h])
  | .error x, .error y => if h : x = y then .isTrue (by rw [h]) else .isFalse (by simp [h])
  | .ok _, .error _ => .isFalse (by simp)
  | .error _, .ok _ => .isFalse (by simp)

instance : DecidableEq (Except Err (Option String)) := fun a b =>
  match a, b with
  | .ok x, .ok y => if h : x = y then .isTrue (by rw [h]) else .isFalse (by simp [h])
  | .error x, .error y => if h : x = y then .isTrue (by rw [h]) else .isFalse (by simp [h])
  | .ok _, .error _ => .isFalse (by simp)
  | .error _, .ok _ => .isFalse (by simp)

instance : DecidableEq (Except Err Config) := fun a b =>
  match a, b with
  | .ok x, .ok y => if h : x = y then .isTrue (by rw [h]) else .isFalse (by simp [h])
  | .error x, .error y => if h : x = y then .isTrue (by rw [h]) else .isFalse (by simp [h])
  | .ok _, .error _ => .isFalse (by simp)
  | .error _, .ok _ => .isFalse (by simp)

instance : DecidableEq (Except Err (String × String)) := fun a b =>
  match a, b with
  | .ok x, .ok y => if h : x = y then .isTrue (by rw [h]) else .isFalse (by simp [h])
  | .error x, .error y => if h : x = y then .isTrue (by rw [h]) else .isFalse (by simp [h])
  | .ok _, .error _ => .isFalse (by simp)
  | .error _, .ok _ => .isFalse (by simp)

/-- `os.symlink(target, link)`: fails with `EEXIST` when something
already exists at the link path; otherwise records the new link.  A
raised error leaves the world unchanged. -/
def symlinkW (target link : String) (w : World) : Except Err Unit × World :=
  if (readLink w link).isSome then (.error (.osError .eexist), w)
  else (.ok (), { w with links := (link, target) :: w.links })

/-- `os.unlink(link)`: fails with `ENOENT` when the path does not exist;
otherwise removes the link. -/
def unlinkW (link : String) (w : World) : Except Err Unit × World :=
  if (readLink w link).isSome then
    (.ok (), { w with links := w.links.filter (fun e => !(e.1 = link)) })
  else (.error (.osError .enoent), w)

/-! ### `Env` configuration accessors (sdk.py lines 102-151) -/

/-- `sys.platform.startswith(p)` as a data-level prefix test. -/
def platStartsWith (s pre : String) : Bool := pre.data.isPrefixOf s.data

/-- `Env.config_dir`: the platform-specific preferences directory. -/
def Env.config_dir (platform : String) : String :=
  (if platStartsWith platform "darwin" then "~/Library/Application Support/"
   else if platStartsWith platform "win" then "~\\Application Settings\\"
   else "~/.") ++ "sdkswitcher"

/-- `Env.cache_dir`: the configured cache directory, defaulting to the
preferences directory, expanded and made absolute. -/
def Env.cache_dir (sys : Sys) (c : Config) : String :=
  let cache_dir := if ¬ (c.cache_dir = "") then c.cache_dir else Env.config_dir sys.platform
  abspath sys.cwd (expanduser sys.home cache_dir)

/-- `Env.sdk_link`: the configured location of the `google_appengine`
symlink (empty when the `link` preference is empty). -/
def Env.sdk_link (sys : Sys) (c : Config) : String :=
  if ¬ (c.link = "") then
    abspath sys.cwd (posixJoin (expanduser sys.home c.link) "google_appengine")
  else c.link

/-- `Env.save_config`: write the preferences file. -/
def saveConfigW (c : Config) (w : World) : World := { w with saved := some c }

/-! ### The version registry `Env._get_installed_versions`
(sdk.py lines 375-395) -/

/-- The names appended by the walk-and-break loop: the immediate child
directories of the cache directory for which
`os.path.exists(<cache>/<child>/google_appengine)` holds, in listing
order.  A missing cache directory (`os.walk` yields nothing) gives no
names. -/
def markedChildren (w : World) : List String :=
  match w.cache with
  | none => []
  | some children => (children.filter (fun e => e.2)).map (fun e => e.1)

/-- `Env._get_installed_versions`: collect the marked children, then
`versions.sort(key=distutils.version.LooseVersion)` — a stable sort by
the LooseVersion key, modelled by insertion sort with the LooseVersion
`≤`. -/
def Env.installedVersions (w : World) : List String :=
  List.insertionSort lvLE (markedChildren w)

/-! ### `Env._resolve_version` (sdk.py lines 397-425) -/

/-- Unanchored literal substring search (`re.search(re.escape(token), v)`
as a boolean). -/
def isSubOf (needle : List Char) : List Char → Bool
  | [] => needle.isEmpty
  | c :: t => needle.isPrefixOf (c :: t) || isSubOf needle t

/-- `Env._resolve_version`.  The update-check response lines are the
explicit `lines` argument (consumed only on the `'latest'` branch).
Returns the version (or `None`, exactly when `_check` found nothing for
`'latest'`); raises `BadVersionString` when a fragment matches zero or
several installed versions. -/
def Env.resolveVersion (w : World) (lines : List String) (version : String) :
    Except Err (Option String) :=
  if version = "latest" then .ok (checkFn lines)
  else if isVersion version then .ok (some version)
  else
    let installed := Env.installedVersions w
    match installed.filter (fun v => isSubOf version.data v.data) with
    | [m] => .ok (some m)
    | _ => .error .badVersionString

/-! ### Download URLs and `Env._download` (sdk.py lines 229-254) -/

/-- `SDK_DOWNLOAD_URL % (version,)`. -/
def Env.sdk_url (version : String) : String :=
  "https://storage.googleapis.com/appengine-sdks/featured/google_appengine_"
    ++ version ++ ".zip"

/-- `version.replace('.', '')`. -/
def removeDots (version : String) : String := ⟨version.data.filter (fun c => !(c = '.'))⟩

/-- `SDK_OLD_DOWNLOAD_URL % (version_no_dots, version)`. -/
def Env.sdk_url_deprecated (version : String) : String :=
  "https://storage.googleapis.com/appengine-sdks/deprecated/"
    ++ removeDots version ++ "/google_appengine_" ++ version ++ ".zip"

/-- A response of `urllib2.urlopen`: a body, an `HTTPError` with its
status code, or a non-HTTP `URLError` (endpoint unreachable). -/
inductive HttpResp : Type
  | ok (body : String)
  | httpError (code : Nat)
  | urlError
deriving DecidableEq

/-- `Env._download` with the network modelled as a response function.
Only `urllib2.HTTPError` from the primary URL is caught (any HTTP error
status); the deprecated-URL request is not wrapped, so its failures
propagate.  The result carries the `mkstemp` suffix (from
`safe_filename` of whichever URL was fetched) and the body; the second
component records the URLs requested, in order. -/
def Env.download0 (net : String → HttpResp) (version : String) :
    Except Err (String × String) × List String :=
  let url := Env.sdk_url version
  match net url with
  | .ok body =>
    (match safe_filename url with
     | .ok suffix => (.ok (suffix, body), [url])
     | .error _ => (.error .valueError, [url]))
  | .httpError _ =>
    let url2 := Env.sdk_url_deprecated version
    (match net url2 with
     | .ok body =>
       (match safe_filename url2 with
        | .ok suffix => (.ok (suffix, body), [url, url2])
        | .error _ => (.error .valueError, [url, url2]))
     | .httpError c => (.error (.httpError c), [url, url2])
     | .urlError => (.error .urlError, [url, url2]))
  | .urlError => (.error .urlError, [url])

/-- `'%s' % v` for the value returned by `_resolve_version`: CPython
formats `None` as the string `'None'`. -/
def pyStr : Option String → String
  | none => "None"
  | some s => s

/-- The state effect of `Env._download`: on success the temp file (its
suffix) is recorded in the world. -/
def downloadStep (net : String → HttpResp) (version : String) (w : World) :
    Except Err String × World :=
  match Env.download0 net version with
  | (.ok (suffix, _), _) => (.ok suffix, { w with temp := w.temp ++ [suffix] })
  | (.error e, _) => (.error e, w)

/-! ### Activation (sdk.py lines 161-202) -/

/-- `Env._activate`: resolve, compute
`target = os.path.join(cache_dir, version, 'google_appengine')`, try
`os.symlink`; on `EEXIST` remove the existing link and retry once.  A
resolved `None` (from `'latest'` with an empty update-check response)
reaches `os.path.join` and raises `AttributeError`. -/
def Env.activate0 (sys : Sys) (c : Config) (lines : List String) (version : String)
    (w : World) : Except Err String × World :=
  match Env.resolveVersion w lines version with
  | .error e => (.error e, w)
  | .ok none => (.error .attributeError, w)
  | .ok (some v) =>
    let link := Env.sdk_link sys c
    let target := posixJoin (posixJoin (Env.cache_dir sys c) v) "google_appengine"
    match symlinkW target link w with
    | (.ok _, w1) => (.ok target, w1)
    | (.error (.osError .eexist), _) =>
      (match unlinkW link w with
       | (.ok _, w1) =>
         (match symlinkW target link w1 with
          | (.ok _, w2) => (.ok target, w2)
          | (.error e, w2) => (.error e, w2))
       | (.error e, w1) => (.error e, w1))
    | (.error e, w1) => (.error e, w1)

/-- `Env.active_version`: read the link; absent (`ENOENT`) means no
active version (`None`); otherwise split the target, `assert` that the
final segment is `'google_appengine'`, and return the name of the
target's parent directory. -/
def Env.active_version (sys : Sys) (c : Config) (w : World) : Except Err (Option String) :=
  match readLink w (Env.sdk_link sys c) with
  | none => .ok none
  | some target =>
    let (dname, fname) := pathSplit target
    if fname = "google_appengine" then .ok (some (pathBasename dname))
    else .error .assertionError

/-- `Env.activate` (the command): `_activate`, then report
`active_version`. -/
def Env.activate (sys : Sys) (c : Config) (lines : List String) (version : String)
    (w : World) : Except Err (Option String) × World :=
  match Env.activate0 sys c lines version w with
  | (.error e, w1) => (.error e, w1)
  | (.ok _, w1) =>
    match Env.active_version sys c w1 with
    | .error e => (.error e, w1)
    | .ok v => (.ok v, w1)

/-! ### `Env.link` (sdk.py lines 301-324) -/

/-- `Env.link`: remember the old link location and the active version;
set the new `link` preference; if there is an active version (a truthy
string) and the computed link path changed, re-run `activate` (with the
updated preferences) and only then unlink the old location (when
truthy); finally save the configuration. -/
def Env.link (sys : Sys) (c : Config) (lines : List String) (dest : String)
    (w : World) : Except Err Config × World :=
  let old_link := Env.sdk_link sys c
  match Env.active_version sys c w with
  | .error e => (.error e, w)
  | .ok version =>
    let c' : Config := { c with link := dest }
    let new_link := Env.sdk_link sys c'
    match version with
    | some v =>
      if v ≠ "" ∧ old_link ≠ new_link then
        match Env.activate sys c' lines v w with
        | (.error e, w1) => (.error e, w1)
        | (.ok _, w1) =>
          if old_link ≠ "" then
            match unlinkW old_link w1 with
            | (.error e, w2) => (.error e, w2)
            | (.ok _, w2) => (.ok c', saveConfigW c' w2)
          else (.ok c', saveConfigW c' w1)
      else (.ok c', saveConfigW c' w)
    | none => (.ok c', saveConfigW c' w)

/-! ### The remaining commands (sdk.py lines 220-227, 256-275, 326-340) -/

/-- `Env.download` (the command): resolve, then `_download`. -/
def Env.download (net : String → HttpResp) (lines : List String) (version : String)
    (w : World) : Except Err String × World :=
  match Env.resolveVersion w lines version with
  | .error e => (.error e, w)
  | .ok ov => downloadStep net (pyStr ov) w

/-- The state effect of `Env._extract`: unpack the archive under
`<cache_dir>/<version>` (the SDK archives carry the `google_appengine`
root, so the marker exists afterwards). -/
def extractW (version : String) (w : World) : World :=
  { w with cache := some ((w.cache.getD []).filter (fun e => !(e.1 = version)) ++ [(version, true)]) }

/-- `Env.install`: resolve; when the version is not installed, download
and extract; then `activate` it.  A resolved `None` is never in the
installed list, so the download runs and `_extract` then raises
`AttributeError` from `os.path.join(target, None)`. -/
def Env.install (sys : Sys) (c : Config) (net : String → HttpResp) (lines : List String)
    (version : String) (w : World) : Except Err (Option String) × World :=
  match Env.resolveVersion w lines version with
  | .error e => (.error e, w)
  | .ok ov =>
    let installed := Env.installedVersions w
    match ov with
    | some v =>
      if v ∈ installed then Env.activate sys c lines v w
      else
        match downloadStep net v w with
        | (.error e, w1) => (.error e, w1)
        | (.ok _, w1) => Env.activate sys c lines v (extractW v w1)
    | none =>
      match downloadStep net "None" w with
      | (.error e, w1) => (.error e, w1)
      | (.ok _, w1) => (.error .attributeError, w1)

/-- `Env.remove`: resolve, then `shutil.rmtree(<cache_dir>/<version>)`
(`ENOENT` when the directory is missing). -/
def Env.remove (sys : Sys) (c : Config) (lines : List String) (version : String)
    (w : World) : Except Err String × World :=
  match Env.resolveVersion w lines version with
  | .error e => (.error e, w)
  | .ok none => (.error .attributeError, w)
  | .ok (some v) =>
    match w.cache with
    | none => (.error (.osError .enoent), w)
    | some kids =>
      if kids.any (fun e => e.1 = v) then
        (.ok (posixJoin (Env.cache_dir sys c) v),
         { w with cache := some (kids.filter (fun e => !(e.1 = v))) })
      else (.error (.osError .enoent), w)

/-! ### Properties of `safe_filename` -/

/-- Every character emitted by `subBadRuns` is in the allowed class
(replacement dots included). -/
theorem subBadRuns_allowed (l : List Char) : ∀ b, ∀ c ∈ subBadRuns b l, allowedCh c = true := by
  induction l with
  | nil => intro b c hc; simp [subBadRuns] at hc
  | cons a t ih =>
    intro b c hc
    by_cases ha : allowedCh a = true
    · simp only [subBadRuns, ha, if_true, List.mem_cons] at hc
      rcases hc with rfl | hc
      · exact ha
      · exact ih false c hc
    · simp only [subBadRuns, ha, if_false, Bool.false_eq_true] at hc
      by_cases hb : b
      · subst hb; simp only [if_true] at hc; exact ih true c hc
      · simp only [Bool.not_eq_true] at hb; subst hb
        simp only [Bool.false_eq_true, if_false, List.mem_cons] at hc
        rcases hc with rfl | hc
        · decide
        · exact ih true c hc

/-- `subDotRuns` only keeps characters of its input. -/
theorem subDotRuns_subset (l : List Char) : ∀ b, ∀ c ∈ subDotRuns b l, c ∈ l := by
  induction l with
  | nil => intro b c hc; simp [subDotRuns] at hc
  | cons a t ih =>
    intro b c hc
    by_cases ha : a = '.'
    · subst ha
      simp only [subDotRuns, if_true] at hc
      by_cases hb : b
      · subst hb; simp only [if_true] at hc
        exact List.mem_cons_of_mem _ (ih true c hc)
      · simp only [Bool.not_eq_true] at hb; subst hb
        simp only [Bool.false_eq_true, if_false, List.mem_cons] at hc
        rcases hc with rfl | hc
        · exact List.mem_cons_self _ _
        · exact List.mem_cons_of_mem _ (ih true c hc)
    · simp only [subDotRuns, ha, if_false, List.mem_cons] at hc
      rcases hc with rfl | hc
      · exact List.mem_cons_self _ _
      · exact List.mem_cons_of_mem _ (ih false c hc)

/-- "No two consecutive dots" as a chain relation. -/
def noTwoDots (a b : Char) : Prop := ¬(a = '.' ∧ b = '.')

/-- `subDotRuns` never emits two consecutive dots, and with the flag set
(previous character was a dot) its output never starts with a dot. -/
theorem subDotRuns_chain (l : List Char) :
    (∀ b, (subDotRuns b l).Chain' noTwoDots) ∧ (subDotRuns true l).head? ≠ some '.' := by
  induction l with
  | nil => exact ⟨fun _ => List.chain'_nil, by simp [subDotRuns]⟩
  | cons a t ih =>
    by_cases ha : a = '.'
    · subst ha
      refine ⟨fun b => ?_, by simpa [subDotRuns] using ih.2⟩
      by_cases hb : b
      · subst hb; simpa [subDotRuns] using ih.1 true
      · simp only [Bool.not_eq_true] at hb; subst hb
        simp only [subDotRuns, if_true, Bool.false_eq_true, if_false]
        rw [List.chain'_cons']
        refine ⟨fun y hy => ?_, ih.1 true⟩
        intro ⟨_, hy2⟩
        exact ih.2 (by rw [hy, hy2])
    · constructor
      · intro b
        simp only [subDotRuns, ha, if_false]
        rw [List.chain'_cons']
        refine ⟨fun y hy => ?_, ih.1 false⟩
        intro ⟨h1, _⟩
        exact ha h1
      · simp [subDotRuns, ha]

/-- The head of `dropWhile p` fails `p`. -/
theorem dropWhile_head_not {α : Type} (p : α → Bool) (l : List α) (c : α)
    (h : (l.dropWhile p).head? = some c) : p c = false := by
  induction l with
  | nil => simp [List.dropWhile] at h
  | cons a t ih =>
    by_cases ha : p a
    · rw [List.dropWhile_cons, if_pos ha] at h
      exact ih h
    · rw [List.dropWhile_cons, if_neg ha] at h
      simp only [List.head?_cons, Option.some.injEq] at h
      subst h
      simpa using ha

/-- A nonempty `dropWhile` keeps the last element. -/
theorem dropWhile_getLast {α : Type} (p : α → Bool) (l : List α)
    (h : l.dropWhile p ≠ []) : (l.dropWhile p).getLast? = l.getLast? := by
  induction l with
  | nil => simp [List.dropWhile] at h
  | cons a t ih =>
    by_cases ha : p a
    · rw [List.dropWhile_cons, if_pos ha] at h ⊢
      rcases ht : t with _ | ⟨x, xs⟩
      · subst ht; simp [List.dropWhile] at h
      · subst ht
        rw [ih h, List.getLast?_cons_cons]
    · rw [List.dropWhile_cons, if_neg ha]

/-- `dropWhile` preserves a chain invariant (it returns a suffix). -/
theorem chain'_dropWhile {α : Type} {r : α → α → Prop} (p : α → Bool) (l : List α)
    (h : l.Chain' r) : (l.dropWhile p).Chain' r := by
  induction l with
  | nil => simpa [List.dropWhile] using h
  | cons a t ih =>
    by_cases ha : p a
    · rw [List.dropWhile_cons, if_pos ha]
      exact ih h.tail
    · rwa [List.dropWhile_cons, if_neg ha]

/-- Characters of `stripChar ch l` come from `l`. -/
theorem stripChar_subset (ch : Char) (l : List Char) : ∀ c ∈ stripChar ch l, c ∈ l := by
  intro c hc
  unfold stripChar at hc
  rw [List.mem_reverse] at hc
  have h1 := List.Sublist.mem hc (List.dropWhile_sublist _)
  rw [List.mem_reverse] at h1
  exact List.Sublist.mem h1 (List.dropWhile_sublist _)

/-- `stripChar` preserves the no-two-dots chain (the relation is
symmetric, so reversing is harmless). -/
theorem stripChar_chain (l : List Char) (h : l.Chain' noTwoDots) :
    (stripChar '.' l).Chain' noTwoDots := by
  unfold stripChar
  rw [List.chain'_reverse]
  have h1 : (List.dropWhile (fun c => c = '.') l).Chain' noTwoDots :=
    chain'_dropWhile _ _ h
  have h2 : (List.dropWhile (fun c => c = '.') l).reverse.Chain' (flip noTwoDots) := by
    rw [List.chain'_reverse]
    exact List.Chain'.imp (fun a b hab => hab) h1
  have h3 := chain'_dropWhile (fun c => c = '.')
    (List.dropWhile (fun c => c = '.') l).reverse h2
  exact h3

/-- The result of `stripChar ch` neither starts nor ends with `ch`. -/
theorem stripChar_ends (ch : Char) (l : List Char) :
    (stripChar ch l).head? ≠ some ch ∧ (stripChar ch l).getLast? ≠ some ch := by
  constructor
  · intro h
    unfold stripChar at h
    rw [List.head?_reverse] at h
    have hne : List.dropWhile (fun c => c = ch)
        (List.dropWhile (fun c => c = ch) l).reverse ≠ [] := by
      intro hz; rw [hz] at h; simp at h
    rw [dropWhile_getLast _ _ hne, List.getLast?_reverse] at h
    have := dropWhile_head_not (fun c => c = ch) l ch h
    simp at this
  · intro h
    unfold stripChar at h
    rw [List.getLast?_reverse] at h
    have := dropWhile_head_not (fun c => c = ch) _ ch h
    simp at this

/-- Wellformedness of every successful `safe_filename` result: nonempty,
only allowed characters, no repeated dots, and no dot at either end. -/
theorem safe_filename_wf (url f : String) (h : safe_filename url = .ok f) :
    f ≠ "" ∧ (∀ c ∈ f.data, allowedCh c = true) ∧
    f.data.Chain' noTwoDots ∧
    f.data.head? ≠ some '.' ∧ f.data.getLast? ≠ some '.' := by
  unfold safe_filename at h
  set f1 := subBadRuns false (afterLastSlash (stripChar '/' url.data)) with hf1
  set f2 := subDotRuns false f1 with hf2
  set f3 := stripChar '.' f2 with hf3
  by_cases hnil : f3 = []
  · rw [if_pos hnil] at h; cases h
  · rw [if_neg hnil] at h
    cases h
    refine ⟨?_, ?_, ?_, ?_, ?_⟩
    · intro hc
      exact hnil (by simpa using congrArg String.data hc)
    · intro c hc
      have h2 : c ∈ f2 := stripChar_subset _ _ c hc
      have h1 : c ∈ f1 := subDotRuns_subset _ _ c h2
      exact subBadRuns_allowed _ _ c h1
    · exact stripChar_chain _ ((subDotRuns_chain f1).1 false)
    · exact (stripChar_ends '.' f2).1
    · exact (stripChar_ends '.' f2).2

/-! ### Order properties of the LooseVersion comparison -/

/-- `listCmpWith` is antisymmetric under `Ordering.swap` when the
element comparison is. -/
theorem listCmpWith_swap {α : Type} (f : α → α → Ordering)
    (hf : ∀ x y, f y x = (f x y).swap) :
    ∀ as bs, listCmpWith f bs as = (listCmpWith f as bs).swap := by
  intro as
  induction as with
  | nil => intro bs; cases bs <;> rfl
  | cons a as ih =>
    intro bs
    cases bs with
    | nil => rfl
    | cons b bs =>
      simp only [listCmpWith]
      rw [hf a b]
      cases f a b <;> simp [Ordering.swap, ih bs]

/-- `listCmpWith` returning `eq` forces list equality when the element
comparison does. -/
theorem listCmpWith_eq {α : Type} (f : α → α → Ordering)
    (hf : ∀ x y, f x y = .eq → x = y) :
    ∀ as bs, listCmpWith f as bs = .eq → as = bs := by
  intro as
  induction as with
  | nil => intro bs h; cases bs with
    | nil => rfl
    | cons b bs => simp [listCmpWith] at h
  | cons a as ih =>
    intro bs h
    cases bs with
    | nil => simp [listCmpWith] at h
    | cons b bs =>
      simp only [listCmpWith] at h
      cases hab : f a b with
      | eq =>
        rw [hab] at h
        rw [hf a b hab, ih bs h]
      | lt => rw [hab] at h; cases h
      | gt => rw [hab] at h; cases h

/-- `listCmpWith` is reflexive-to-`eq` when the element comparison is. -/
theorem listCmpWith_refl {α : Type} (f : α → α → Ordering)
    (hf : ∀ x, f x x = .eq) : ∀ as, listCmpWith f as as = .eq := by
  intro as
  induction as with
  | nil => rfl
  | cons a as ih => simp [listCmpWith, hf a, ih]

/-- Transitivity of the strict part of `listCmpWith`. -/
theorem listCmpWith_lt_trans {α : Type} (f : α → α → Ordering)
    (hfeq : ∀ x y, f x y = .eq → x = y)
    (hfrefl : ∀ x, f x x = .eq)
    (hflt : ∀ x y z, f x y = .lt → f y z = .lt → f x z = .lt) :
    ∀ as bs cs, listCmpWith f as bs = .lt → listCmpWith f bs cs = .lt →
      listCmpWith f as cs = .lt := by
  intro as
  induction as with
  | nil =>
    intro bs cs h1 h2
    cases bs with
    | nil => exact h2
    | cons b bs =>
      cases cs with
      | nil => simp [listCmpWith] at h2
      | cons c cs => rfl
  | cons a as ih =>
    intro bs cs h1 h2
    cases bs with
    | nil => simp [listCmpWith] at h1
    | cons b bs =>
      cases cs with
      | nil => simp [listCmpWith] at h2
      | cons c cs =>
        simp only [listCmpWith] at h1 h2 ⊢
        cases hab : f a b with
        | gt => rw [hab] at h1; cases h1
        | lt =>
          cases hbc : f b c with
          | gt => rw [hbc] at h2; cases h2
          | lt => rw [hflt a b c hab hbc]
          | eq =>
            have : b = c := hfeq b c hbc
            subst this
            rw [hab]
        | eq =>
          have : a = b := hfeq a b hab
          subst this
          cases hbc : f a c with
          | gt => rw [hbc] at h2; exact absurd h2 (by simp)
          | lt => rfl
          | eq =>
            rw [hab] at h1
            rw [hbc] at h2
            exact ih bs cs h1 h2

/-- `compare` on `Nat`, swapped. -/
theorem natCompare_swap (a b : Nat) : compare b a = (compare a b).swap := by
  rcases Nat.lt_trichotomy a b with h | h | h
  · rw [Nat.compare_eq_lt.2 h, Nat.compare_eq_gt.2 h]; rfl
  · subst h; rw [Nat.compare_eq_eq.2 rfl]; rfl
  · rw [Nat.compare_eq_gt.2 h, Nat.compare_eq_lt.2 h]; rfl

theorem charCmp_swap (a b : Char) : charCmp b a = (charCmp a b).swap :=
  natCompare_swap _ _

theorem charCmp_eq (a b : Char) (h : charCmp a b = .eq) : a = b := by
  have : a.toNat = b.toNat := Nat.compare_eq_eq.1 h
  unfold Char.toNat at this
  exact Char.ext (UInt32.ext this)

theorem charCmp_refl (a : Char) : charCmp a a = .eq := Nat.compare_eq_eq.2 rfl

theorem charCmp_lt_trans (a b c : Char) (h1 : charCmp a b = .lt) (h2 : charCmp b c = .lt) :
    charCmp a c = .lt :=
  Nat.compare_eq_lt.2 (Nat.lt_trans (Nat.compare_eq_lt.1 h1) (Nat.compare_eq_lt.1 h2))

theorem lvPartCmp_swap (x y : LVPart) : lvPartCmp y x = (lvPartCmp x y).swap := by
  cases x with
  | num a =>
    cases y with
    | num b => exact natCompare_swap a b
    | str t => rfl
  | str s =>
    cases y with
    | num b => rfl
    | str t => exact listCmpWith_swap charCmp charCmp_swap s.data t.data

theorem lvPartCmp_eq (x y : LVPart) (h : lvPartCmp x y = .eq) : x = y := by
  cases x with
  | num a =>
    cases y with
    | num b => rw [Nat.compare_eq_eq.1 h]
    | str s => simp [lvPartCmp] at h
  | str s =>
    cases y with
    | num b => simp [lvPartCmp] at h
    | str t =>
      have hdata := listCmpWith_eq charCmp charCmp_eq s.data t.data h
      obtain ⟨sd⟩ := s
      obtain ⟨td⟩ := t
      rw [show sd = td from hdata]

theorem lvPartCmp_refl (x : LVPart) : lvPartCmp x x = .eq := by
  cases x with
  | num a => exact Nat.compare_eq_eq.2 rfl
  | str s => exact listCmpWith_refl charCmp charCmp_refl s.data

theorem lvPartCmp_lt_trans (x y z : LVPart) (h1 : lvPartCmp x y = .lt)
    (h2 : lvPartCmp y z = .lt) : lvPartCmp x z = .lt := by
  cases x with
  | num a =>
    cases z with
    | str u => rfl
    | num cn =>
      cases y with
      | num b =>
        exact Nat.compare_eq_lt.2 (Nat.lt_trans (Nat.compare_eq_lt.1 h1) (Nat.compare_eq_lt.1 h2))
      | str t => simp [lvPartCmp] at h2
  | str s =>
    cases y with
    | num b => simp [lvPartCmp] at h1
    | str t =>
      cases z with
      | num cn => simp [lvPartCmp] at h2
      | str u =>
        exact listCmpWith_lt_trans charCmp charCmp_eq charCmp_refl charCmp_lt_trans
          s.data t.data u.data h1 h2

/-- Totality of the LooseVersion `≤`. -/
instance : IsTotal String lvLE := by
  constructor
  intro a b
  unfold lvLE lvCmpStr
  cases h : listCmpWith lvPartCmp (lvKey a) (lvKey b) with
  | lt => left; simp [h]
  | eq => left; simp [h]
  | gt =>
    right
    rw [listCmpWith_swap lvPartCmp lvPartCmp_swap, h]
    simp [Ordering.swap]

/-- Transitivity of the LooseVersion `≤`. -/
instance : IsTrans String lvLE := by
  constructor
  intro a b c h1 h2
  unfold lvLE lvCmpStr at h1 h2 ⊢
  cases hab : listCmpWith lvPartCmp (lvKey a) (lvKey b) with
  | gt => exact absurd hab h1
  | eq =>
    have : lvKey a = lvKey b := listCmpWith_eq lvPartCmp lvPartCmp_eq _ _ hab
    rw [this]
    exact h2
  | lt =>
    cases hbc : listCmpWith lvPartCmp (lvKey b) (lvKey c) with
    | gt => exact absurd hbc h2
    | eq =>
      have : lvKey b = lvKey c := listCmpWith_eq lvPartCmp lvPartCmp_eq _ _ hbc
      rw [← this, hab]
      simp
    | lt =>
      rw [listCmpWith_lt_trans lvPartCmp lvPartCmp_eq lvPartCmp_refl lvPartCmp_lt_trans
        _ _ _ hab hbc]
      simp

/-! ### The shape of strings matching the strict version pattern -/

/-- Inversion of `readNat`: the input splits into a nonempty digit run
and a remainder that does not start with a digit. -/
theorem readNat_inv (l : List Char) (n : Nat) (r : List Char)
    (h : readNat l = some (n, r)) :
    ∃ ds, l = ds ++ r ∧ ds ≠ [] ∧ (∀ c ∈ ds, c.isDigit = true) ∧ n = digitsToNat ds ∧
      (r = [] ∨ ∃ c cs, r = c :: cs ∧ c.isDigit = false) := by
  unfold readNat at h
  cases hT : l.takeWhile Char.isDigit with
  | nil => rw [hT] at h; cases h
  | cons d ds' =>
    rw [hT] at h
    simp only [Option.some.injEq, Prod.mk.injEq] at h
    obtain ⟨hn, hr⟩ := h
    refine ⟨d :: ds', ?_, by simp, ?_, hn.symm, ?_⟩
    · rw [← hT, ← hr, List.takeWhile_append_dropWhile]
    · intro c hc
      have hc' : c ∈ l.takeWhile Char.isDigit := by rw [hT]; exact hc
      exact List.mem_takeWhile_imp hc'
    · subst hr
      cases hD : l.dropWhile Char.isDigit with
      | nil => exact Or.inl rfl
      | cons c cs =>
        refine Or.inr ⟨c, cs, rfl, ?_⟩
        exact dropWhile_head_not Char.isDigit l c (by rw [hD]; rfl)

/-- Inversion of `expectDot`. -/
theorem expectDot_inv (l r : List Char) (h : expectDot l = some r) : l = '.' :: r := by
  cases l with
  | nil => cases h
  | cons c cs =>
    by_cases hc : c = '.'
    · subst hc
      simp only [expectDot, if_true, eq_self_iff_true, Option.some.injEq] at h
      rw [h]
    · simp [expectDot, hc] at h

/-- Inversion of `parse3`: a matching string is three nonempty digit
runs joined by dots, and the components are their values. -/
theorem parse3_inv (l : List Char) (a b c : Nat) (h : parse3 l = some (a, b, c)) :
    ∃ d1 d2 d3 : List Char,
      l = d1 ++ '.' :: (d2 ++ '.' :: d3) ∧
      d1 ≠ [] ∧ d2 ≠ [] ∧ d3 ≠ [] ∧
      (∀ x ∈ d1, x.isDigit = true) ∧ (∀ x ∈ d2, x.isDigit = true) ∧
      (∀ x ∈ d3, x.isDigit = true) ∧
      a = digitsToNat d1 ∧ b = digitsToNat d2 ∧ c = digitsToNat d3 := by
  unfold parse3 at h
  cases h1 : readNat l with
  | none => rw [h1] at h; cases h
  | some p1 =>
    rw [h1] at h
    obtain ⟨n1, r1⟩ := p1
    simp only [Option.some_bind] at h
    cases h2 : expectDot r1 with
    | none => rw [h2] at h; cases h
    | some r2 =>
      rw [h2] at h
      simp only [Option.some_bind] at h
      cases h3 : readNat r2 with
      | none => rw [h3] at h; cases h
      | some p2 =>
        rw [h3] at h
        obtain ⟨n2, r3⟩ := p2
        simp only [Option.some_bind] at h
        cases h4 : expectDot r3 with
        | none => rw [h4] at h; cases h
        | some r4 =>
          rw [h4] at h
          simp only [Option.some_bind] at h
          cases h5 : readNat r4 with
          | none => rw [h5] at h; cases h
          | some p3 =>
            rw [h5] at h
            obtain ⟨n3, r5⟩ := p3
            simp only [Option.some_bind] at h
            by_cases h6 : r5 = []
            · rw [if_pos h6] at h
              simp only [Option.some.injEq, Prod.mk.injEq] at h
              obtain ⟨ha, hb, hc⟩ := h
              obtain ⟨d1, hl1, hne1, hdig1, hv1, _⟩ := readNat_inv _ _ _ h1
              obtain ⟨d2, hl2, hne2, hdig2, hv2, _⟩ := readNat_inv _ _ _ h3
              obtain ⟨d3, hl3, hne3, hdig3, hv3, _⟩ := readNat_inv _ _ _ h5
              have e2 := expectDot_inv _ _ h2
              have e4 := expectDot_inv _ _ h4
              refine ⟨d1, d2, d3, ?_, hne1, hne2, hne3, hdig1, hdig2, hdig3,
                by rw [← ha, hv1], by rw [← hb, hv2], by rw [← hc, hv3]⟩
              subst h6
              rw [hl1, e2, hl2, e4, hl3]
              simp
            · rw [if_neg h6] at h; cases h

/-- `lvTokens` on a leading dot skips it. -/
theorem lvTokens_dot (l : List Char) : lvTokens ('.' :: l) = lvTokens l := rfl

/-- `chTy` of a digit. -/
theorem chTy_digit (c : Char) (h : c.isDigit = true) : chTy c = some .dig := by
  have hdot : ¬ c = '.' := by
    intro hEq; rw [hEq] at h; simp [Char.isDigit] at h
  unfold chTy
  rw [if_neg hdot, if_pos h]

/-- Scanning inside a digit run: the rest of the run is absorbed into
the accumulator, the run is flushed at its end, and the scan continues. -/
theorem lvTokensAux_dig (ds : List Char) : ∀ acc rest,
    (∀ c ∈ ds, c.isDigit = true) →
    (rest = [] ∨ ∃ c cs, rest = c :: cs ∧ c.isDigit = false) →
    lvTokensAux (some (.dig, acc)) (ds ++ rest)
      = .num (digitsToNat (acc.reverse ++ ds)) :: lvTokensAux none rest := by
  induction ds with
  | nil =>
    intro acc rest _ hr
    rcases hr with rfl | ⟨c, cs, rfl, hc⟩
    · simp [lvTokensAux, flushRun]
    · simp only [List.nil_append, List.append_nil, lvTokensAux]
      cases hct : chTy c with
      | none => rfl
      | some t2 =>
        have ht2 : ¬ t2 = RunTy.dig := by
          intro hEq
          subst hEq
          unfold chTy at hct
          by_cases hdot : c = '.'
          · rw [if_pos hdot] at hct; cases hct
          · rw [if_neg hdot, hc] at hct
            by_cases hlow : c.isLower = true
            · rw [if_pos hlow] at hct; cases hct
            · rw [if_neg hlow] at hct; cases hct
        show (if t2 = RunTy.dig then lvTokensAux (some (RunTy.dig, c :: acc)) cs
              else flushRun RunTy.dig acc :: lvTokensAux (some (t2, [c])) cs)
            = LVPart.num (digitsToNat acc.reverse) :: lvTokensAux (some (t2, [c])) cs
        rw [if_neg ht2]
        rfl
  | cons d ds ih =>
    intro acc rest hd hr
    have hdd : d.isDigit = true := hd d (by simp)
    have hstep : lvTokensAux (some (.dig, acc)) ((d :: ds) ++ rest)
        = lvTokensAux (some (.dig, d :: acc)) (ds ++ rest) := by
      show (match chTy d with
            | none => flushRun .dig acc :: lvTokensAux none (ds ++ rest)
            | some t2 =>
              if t2 = RunTy.dig then lvTokensAux (some (.dig, d :: acc)) (ds ++ rest)
              else flushRun .dig acc :: lvTokensAux (some (t2, [d])) (ds ++ rest))
          = lvTokensAux (some (.dig, d :: acc)) (ds ++ rest)
      rw [chTy_digit d hdd]
      rfl
    rw [hstep, ih (d :: acc) rest (fun c hc => hd c (by simp [hc])) hr]
    simp

/-- `lvTokens` on a leading maximal digit run emits its numeric value. -/
theorem lvTokens_digit_run (ds rest : List Char) (hne : ds ≠ [])
    (hd : ∀ c ∈ ds, c.isDigit = true)
    (hr : rest = [] ∨ ∃ c cs, rest = c :: cs ∧ c.isDigit = false) :
    lvTokens (ds ++ rest) = .num (digitsToNat ds) :: lvTokens rest := by
  cases ds with
  | nil => exact absurd rfl hne
  | cons d ds' =>
    have hdd : d.isDigit = true := hd d (by simp)
    have hstep : lvTokensAux none ((d :: ds') ++ rest)
        = lvTokensAux (some (.dig, [d])) (ds' ++ rest) := by
      show (match chTy d with
            | none => lvTokensAux none (ds' ++ rest)
            | some t => lvTokensAux (some (t, [d])) (ds' ++ rest))
          = lvTokensAux (some (.dig, [d])) (ds' ++ rest)
      rw [chTy_digit d hdd]
    show lvTokensAux none ((d :: ds') ++ rest) = _
    rw [hstep, lvTokensAux_dig ds' [d] rest (fun c hc => hd c (by simp [hc])) hr]
    rfl

/-- For a string matching the strict version pattern, the LooseVersion
key is exactly the three numeric components. -/
theorem lvKey_of_parse3 (s : String) (a b c : Nat) (h : parse3 s.data = some (a, b, c)) :
    lvKey s = [.num a, .num b, .num c] := by
  obtain ⟨d1, d2, d3, hl, h1, h2, h3, hd1, hd2, hd3, ha, hb, hc⟩ := parse3_inv _ _ _ _ h
  unfold lvKey
  rw [hl]
  rw [lvTokens_digit_run d1 _ h1 hd1 (Or.inr ⟨'.', _, rfl, by simp [Char.isDigit]⟩)]
  rw [lvTokens_dot]
  rw [lvTokens_digit_run d2 _ h2 hd2 (Or.inr ⟨'.', _, rfl, by simp [Char.isDigit]⟩)]
  rw [lvTokens_dot]
  rw [show (d3 : List Char) = d3 ++ [] by simp]
  rw [lvTokens_digit_run d3 [] h3 hd3 (Or.inl rfl)]
  rw [← ha, ← hb, ← hc]
  rfl

/-- Component-wise numeric comparison of dot-separated version triples
(the ordering the specification describes). -/
def triLE (x y : Nat × Nat × Nat) : Prop :=
  x.1 < y.1 ∨ (x.1 = y.1 ∧ (x.2.1 < y.2.1 ∨ (x.2.1 = y.2.1 ∧ x.2.2 ≤ y.2.2)))

instance : DecidableRel triLE := fun x y => by unfold triLE; infer_instance

/-- The numeric triple of a strict-pattern version string. -/
def versionTriple (s : String) : Nat × Nat × Nat := (parse3 s.data).getD (0, 0, 0)

/-- On strict-pattern version strings, the LooseVersion `≤` coincides
with component-wise numeric comparison. -/
theorem lvLE_iff_triLE (x y : String) (a1 a2 a3 b1 b2 b3 : Nat)
    (hx : lvKey x = [.num a1, .num a2, .num a3])
    (hy : lvKey y = [.num b1, .num b2, .num b3]) :
    lvLE x y ↔ triLE (a1, a2, a3) (b1, b2, b3) := by
  unfold lvLE lvCmpStr triLE
  rw [hx, hy]
  simp only [listCmpWith, lvPartCmp]
  rcases Nat.lt_trichotomy a1 b1 with h1 | h1 | h1
  · rw [Nat.compare_eq_lt.2 h1]
    simp only [ne_eq]
    constructor
    · intro _; exact Or.inl h1
    · intro _; simp
  · subst h1
    rw [Nat.compare_eq_eq.2 rfl]
    rcases Nat.lt_trichotomy a2 b2 with h2 | h2 | h2
    · rw [Nat.compare_eq_lt.2 h2]
      constructor
      · intro _; exact Or.inr ⟨rfl, Or.inl h2⟩
      · intro _; simp
    · subst h2
      rw [Nat.compare_eq_eq.2 rfl]
      rcases Nat.lt_trichotomy a3 b3 with h3 | h3 | h3
      · rw [Nat.compare_eq_lt.2 h3]
        constructor
        · intro _; exact Or.inr ⟨rfl, Or.inr ⟨rfl, Nat.le_of_lt h3⟩⟩
        · intro _; simp
      · subst h3
        rw [Nat.compare_eq_eq.2 rfl]
        constructor
        · intro _; exact Or.inr ⟨rfl, Or.inr ⟨rfl, Nat.le_refl _⟩⟩
        · intro _; simp
      · rw [Nat.compare_eq_gt.2 h3]
        constructor
        · intro hcon; exact absurd rfl hcon
        · intro hcon; exfalso; omega
    · rw [Nat.compare_eq_gt.2 h2]
      constructor
      · intro hcon; exact absurd rfl hcon
      · intro hcon; exfalso; omega
  · rw [Nat.compare_eq_gt.2 h1]
    constructor
    · intro hcon; exact absurd rfl hcon
    · intro hcon; exfalso; omega

/-- C6: `listInstalled` returns exactly the marked immediate children of
the cache directory, ordered ascending by component-wise numeric
comparison of the dot-separated integer components (so adjacent pairs
satisfy `triLE`); a missing cache directory yields the empty list, not
an error; and the spec's example sorts as stated. -/
theorem claim_installed_versions_listing :
    (∀ w : World,
      (∀ name ∈ markedChildren w, isVersion name = true) →
      (Env.installedVersions w).Pairwise
        (fun a b => triLE (versionTriple a) (versionTriple b)) ∧
      (Env.installedVersions w).Perm (markedChildren w)) ∧
    (∀ w : World, w.cache = none → Env.installedVersions w = []) ∧
    Env.installedVersions
        ⟨[], some [("9.0.0", true), ("100.0.0", true), ("1.0.0", true)], none, []⟩
      = ["1.0.0", "9.0.0", "100.0.0"] := by
  refine ⟨?_, ?_, ?_⟩
  · intro w h
    have hperm := List.perm_insertionSort lvLE (markedChildren w)
    constructor
    · have hs : (Env.installedVersions w).Pairwise lvLE :=
        List.sorted_insertionSort lvLE (markedChildren w)
      refine List.Pairwise.imp_of_mem ?_ hs
      intro a b ha hb hab
      have ha' : a ∈ markedChildren w := hperm.mem_iff.1 ha
      have hb' : b ∈ markedChildren w := hperm.mem_iff.1 hb
      have hva := h a ha'
      have hvb := h b hb'
      rw [isVersion, Option.isSome_iff_exists] at hva hvb
      obtain ⟨⟨a1, a2, a3⟩, hpa⟩ := hva
      obtain ⟨⟨b1, b2, b3⟩, hpb⟩ := hvb
      have ht : triLE (a1, a2, a3) (b1, b2, b3) :=
        (lvLE_iff_triLE a b a1 a2 a3 b1 b2 b3
          (lvKey_of_parse3 _ _ _ _ hpa) (lvKey_of_parse3 _ _ _ _ hpb)).1 hab
      unfold versionTriple
      rw [hpa, hpb]
      exact ht
    · exact hperm
  · intro w h
    simp [Env.installedVersions, markedChildren, h]
  · decide

/-! ### Version resolution claims -/

/-- `isSubOf` is genuine substring containment. -/
theorem isSubOf_iff (needle hay : List Char) :
    isSubOf needle hay = true ↔ ∃ p q, hay = p ++ needle ++ q := by
  induction hay with
  | nil =>
    simp only [isSubOf, List.isEmpty_iff]
    constructor
    · rintro rfl; exact ⟨[], [], rfl⟩
    · rintro ⟨p, q, hpq⟩
      rcases List.append_eq_nil.1 (List.append_eq_nil.1 hpq.symm).1 with ⟨_, h2⟩
      exact h2
  | cons c t ih =>
    simp only [isSubOf, Bool.or_eq_true, ih]
    constructor
    · rintro (hpre | ⟨p, q, rfl⟩)
      · obtain ⟨s, hs⟩ := List.isPrefixOf_iff_prefix.1 hpre
        exact ⟨[], s, by rw [← hs]; simp⟩
      · exact ⟨c :: p, q, by simp⟩
    · rintro ⟨p, q, hpq⟩
      cases p with
      | nil =>
        left
        refine List.isPrefixOf_iff_prefix.2 ⟨q, ?_⟩
        simpa using hpq.symm
      | cons x p =>
        right
        rw [List.cons_append, List.cons_append, List.cons.injEq] at hpq
        exact ⟨p, q, hpq.2⟩

/-- C1 (counterexample): when the update-check collaborator finds no
matching line (`_check` returns `None`), `_resolve_version('latest')`
returns that `None` as an ordinary successful result — it is not turned
into an error by the core. -/
theorem claim_latest_nothing_found_counterexample :
    checkFn ["timestamp: 1516312066"] = none ∧
    Env.resolveVersion ⟨[], some [("1.9.57", true)], none, []⟩
      ["timestamp: 1516312066"] "latest" = .ok none :=
  ⟨rfl, rfl⟩

/-- C1 (amended): for the token `latest`, resolution delegates to the
update-check collaborator and propagates its result verbatim — including
the nothing-found result, which is passed through as a successful
resolution rather than raised as an error. -/
theorem claim_latest_delegates_verbatim :
    ∀ (w : World) (lines : List String),
      Env.resolveVersion w lines "latest" = .ok (checkFn lines) ∧
      (checkFn lines = none → Env.resolveVersion w lines "latest" = .ok none) := by
  intro w lines
  refine ⟨rfl, fun h => ?_⟩
  rw [show Env.resolveVersion w lines "latest" = .ok (checkFn lines) from rfl, h]

/-- C1 witness: the amended theorem applied at a concrete empty
response. -/
theorem claim_latest_delegates_verbatim_witness :
    checkFn [] = none ∧
    Env.resolveVersion ⟨[], none, none, []⟩ [] "latest" = .ok none :=
  ⟨rfl, (claim_latest_delegates_verbatim ⟨[], none, none, []⟩ []).2 rfl⟩

/-- C7: for a token that is neither `latest` nor a strict-pattern
version, resolution is an unanchored substring search over the installed
versions: a unique containing version is returned, and zero or several
matches raise `BadVersionString`; with installed `{1.9.57}` the token
`57` resolves to `1.9.57`, while with `{1.9.57, 1.8.57}` it fails. -/
theorem claim_fragment_substring_resolution :
    (∀ (w : World) (lines : List String) (token : String),
      token ≠ "latest" → isVersion token = false →
      (∀ v : String, isSubOf token.data v.data = true ↔
        ∃ p q, v.data = p ++ token.data ++ q) ∧
      (∀ m, (Env.installedVersions w).filter
          (fun v => isSubOf token.data v.data) = [m] →
        Env.resolveVersion w lines token = .ok (some m) ∧
        m ∈ Env.installedVersions w ∧ isSubOf token.data m.data = true) ∧
      (((Env.installedVersions w).filter
          (fun v => isSubOf token.data v.data)).length ≠ 1 →
        Env.resolveVersion w lines token = .error .badVersionString)) ∧
    Env.resolveVersion ⟨[], some [("1.9.57", true)], none, []⟩ [] "57"
      = .ok (some "1.9.57") ∧
    Env.resolveVersion ⟨[], some [("1.9.57", true), ("1.8.57", true)], none, []⟩ [] "57"
      = .error .badVersionString := by
  refine ⟨?_, by decide, by decide⟩
  intro w lines token h1 h2
  have hres : Env.resolveVersion w lines token =
      (match (Env.installedVersions w).filter (fun v => isSubOf token.data v.data) with
       | [m] => .ok (some m)
       | _ => .error .badVersionString) := by
    unfold Env.resolveVersion
    rw [if_neg h1, if_neg (by rw [h2]; exact Bool.false_ne_true)]
  refine ⟨fun v => isSubOf_iff token.data v.data, ?_, ?_⟩
  · intro m hm
    refine ⟨by rw [hres, hm], ?_, ?_⟩
    · have : m ∈ (Env.installedVersions w).filter (fun v => isSubOf token.data v.data) := by
        rw [hm]; simp
      exact (List.mem_filter.1 this).1
    · have : m ∈ (Env.installedVersions w).filter (fun v => isSubOf token.data v.data) := by
        rw [hm]; simp
      exact (List.mem_filter.1 this).2
  · intro hlen
    rw [hres]
    cases hF : (Env.installedVersions w).filter (fun v => isSubOf token.data v.data) with
    | nil => rfl
    | cons a rest =>
      cases rest with
      | nil => exact absurd (by rw [hF]; rfl) hlen
      | cons b rest2 => rfl

/-! ### Path lemmas for activation -/

/-- Splitting a path of the form `<head>/<leaf>` where the leaf is
slash-free and the head ends in a non-slash character recovers exactly
the head and the leaf. -/
theorem pathSplitData_append (xd gd : List Char) (lc : Char)
    (hg : ∀ c ∈ gd, ¬ c = '/')
    (hx : xd.getLast? = some lc) (hlc : ¬ lc = '/') :
    pathSplitData (xd ++ '/' :: gd) = (xd, gd) := by
  have hrev : (xd ++ '/' :: gd).reverse = gd.reverse ++ '/' :: xd.reverse := by
    rw [List.reverse_append, List.reverse_cons]
    simp
  have hgrev : ∀ c ∈ gd.reverse, (!(c = '/')) = true := by
    intro c hc
    simp only [Bool.not_eq_true']
    simp only [decide_eq_false_iff_not]
    exact hg c (List.mem_reverse.1 hc)
  have hbs : ('/' :: xd.reverse : List Char) = [] ∨
      ∃ c cs, ('/' :: xd.reverse : List Char) = c :: cs ∧ (!(c = '/')) = false :=
    Or.inr ⟨'/', xd.reverse, rfl, by simp⟩
  have hT : ((xd ++ '/' :: gd).reverse).takeWhile (fun c => !(c = '/')) = gd.reverse := by
    rw [hrev]; exact takeWhile_append_all _ _ _ hgrev hbs
  have hD : ((xd ++ '/' :: gd).reverse).dropWhile (fun c => !(c = '/')) = '/' :: xd.reverse := by
    rw [hrev]; exact dropWhile_append_all _ _ _ hgrev hbs
  have hxr : ∃ ys, xd.reverse = lc :: ys := by
    have : xd.reverse.head? = some lc := by rw [List.head?_reverse]; exact hx
    cases hc : xd.reverse with
    | nil => rw [hc] at this; cases this
    | cons y ys =>
      rw [hc] at this
      simp only [List.head?_cons, Option.some.injEq] at this
      exact ⟨ys, by rw [this]⟩
  obtain ⟨ys, hys⟩ := hxr
  have hne : (('/' :: xd.reverse).reverse : List Char) ≠ [] := by simp
  have hany : (('/' :: xd.reverse).reverse).any (fun c => !(c = '/')) = true := by
    refine List.any_eq_true.2 ⟨lc, ?_, by simp only [Bool.not_eq_true']; simpa using hlc⟩
    simp only [List.reverse_cons, List.mem_append, List.mem_reverse]
    left
    exact List.mem_of_mem_getLast? hx
  have hdrop : (('/' :: xd.reverse).dropWhile (fun c => c = '/')) = xd.reverse := by
    rw [List.dropWhile_cons]
    simp only [decide_true_eq_true, if_true]
    rw [hys, List.dropWhile_cons]
    simp only [decide_eq_true_eq]
    rw [if_neg hlc]
  unfold pathSplitData
  simp only [hT, hD, List.reverse_reverse]
  rw [if_pos ⟨hne, hany⟩]
  simp only [List.reverse_reverse, hdrop, Prod.mk.injEq]

/-- The basename of `ys ++ leaf` is the leaf when the leaf is slash-free
and `ys` is empty or ends with a slash. -/
theorem pathSplitData_tail (ys vd : List Char)
    (hv : ∀ c ∈ vd, ¬ c = '/')
    (hy : ys = [] ∨ ys.getLast? = some '/') :
    (pathSplitData (ys ++ vd)).2 = vd := by
  have hvrev : ∀ c ∈ vd.reverse, (!(c = '/')) = true := by
    intro c hc
    simp only [Bool.not_eq_true']
    simp only [decide_eq_false_iff_not]
    exact hv c (List.mem_reverse.1 hc)
  have hbs : ys.reverse = [] ∨
      ∃ c cs, ys.reverse = c :: cs ∧ (!(c = '/')) = false := by
    rcases hy with rfl | hy
    · exact Or.inl rfl
    · have : ys.reverse.head? = some '/' := by rw [List.head?_reverse]; exact hy
      cases hc : ys.reverse with
      | nil => rw [hc] at this; cases this
      | cons y ys' =>
        rw [hc] at this
        simp only [List.head?_cons, Option.some.injEq] at this
        exact Or.inr ⟨y, ys', rfl, by simp [this]⟩
  unfold pathSplitData
  simp only [List.reverse_append]
  rw [takeWhile_append_all _ _ _ hvrev hbs, List.reverse_reverse]

/-- A digit character is not a slash. -/
theorem isDigit_ne_slash (c : Char) (h : c.isDigit = true) : ¬ c = '/' := by
  intro hEq; rw [hEq] at h; simp [Char.isDigit] at h

/-- Shape facts about a strict-pattern version string: nonempty,
slash-free, and its last character is a digit. -/
theorem isVersion_shape (v : String) (hv : isVersion v = true) :
    v.data ≠ [] ∧ (∀ c ∈ v.data, ¬ c = '/') ∧
    (∃ lc, v.data.getLast? = some lc ∧ lc.isDigit = true) := by
  rw [isVersion, Option.isSome_iff_exists] at hv
  obtain ⟨⟨a, b, c⟩, hp⟩ := hv
  obtain ⟨d1, d2, d3, hl, h1, h2, h3, hd1, hd2, hd3, _, _, _⟩ := parse3_inv _ _ _ _ hp
  refine ⟨by rw [hl]; simp, ?_, ?_⟩
  · intro ch hch
    rw [hl] at hch
    simp only [List.mem_append, List.mem_cons] at hch
    rcases hch with h | h | h | h
    · exact isDigit_ne_slash ch (hd1 ch h)
    · intro hEq; rw [h] at hEq; cases hEq
    · exact isDigit_ne_slash ch (hd2 ch h)
    · rcases h with h | h
      · intro hEq; rw [h] at hEq; cases hEq
      · exact isDigit_ne_slash ch (hd3 ch h)
  · cases hd : d3.getLast? with
    | none => exact absurd (List.getLast?_eq_none_iff.1 hd) h3
    | some lc =>
      refine ⟨lc, ?_, hd3 lc (List.mem_of_mem_getLast? hd)⟩
      rw [hl]
      rw [List.getLast?_append_of_ne_nil _ (by simp)]
      rw [show ('.' :: (d2 ++ '.' :: d3) : List Char) = ['.'] ++ (d2 ++ '.' :: d3) from rfl]
      rw [List.getLast?_append_of_ne_nil _ (by simp)]
      rw [show (d2 ++ '.' :: d3 : List Char) = (d2 ++ ['.']) ++ d3 from by simp]
      rw [List.getLast?_append_of_ne_nil _ h3]
      exact hd

/-- A strict-pattern version string does not start with a slash. -/
theorem isVersion_startsWithSlash (v : String) (hv : isVersion v = true) :
    startsWithSlash v = false := by
  obtain ⟨hvne, hvns, _, _, _⟩ := isVersion_shape v hv
  unfold startsWithSlash
  cases hd : v.data with
  | nil => exact absurd hd hvne
  | cons x xs =>
    have hx : ¬ x = '/' := hvns x (by rw [hd]; simp)
    simp [hx]

/-- `posixpath.join` of anything with a strict-pattern version: the
result is the version appended to an empty-or-slash-terminated prefix,
and it ends with the version's last character. -/
theorem posixJoin_version (a v : String) (hv : isVersion v = true) :
    ∃ ys, (posixJoin a v).data = ys ++ v.data ∧
      (ys = [] ∨ ys.getLast? = some '/') ∧
      (posixJoin a v).data.getLast? = v.data.getLast? := by
  obtain ⟨hvne, hvns, lc, hlast, hdig⟩ := isVersion_shape v hv
  have hsw : startsWithSlash v = false := isVersion_startsWithSlash v hv
  have key : ∃ ys, (posixJoin a v).data = ys ++ v.data ∧
      (ys = [] ∨ ys.getLast? = some '/') := by
    unfold posixJoin
    rw [hsw]
    simp only [Bool.false_eq_true, if_false]
    by_cases hc : a = "" ∨ endsWithSlash a = true
    · rw [if_pos hc]
      refine ⟨a.data, String.data_append a v, ?_⟩
      rcases hc with hc | hc
      · left; rw [hc]
      · right
        unfold endsWithSlash at hc
        simpa using hc
    · rw [if_neg hc]
      refine ⟨a.data ++ ['/'], ?_, Or.inr (List.getLast?_concat _)⟩
      rw [String.data_append, String.data_append]
  obtain ⟨ys, hy1, hy2⟩ := key
  refine ⟨ys, hy1, hy2, ?_⟩
  rw [hy1]
  exact List.getLast?_append_of_ne_nil _ hvne

/-- `pathSplit` componentwise. -/
theorem pathSplit_eq (p : String) :
    pathSplit p = (⟨(pathSplitData p.data).1⟩, ⟨(pathSplitData p.data).2⟩) := by
  unfold pathSplit
  rcases hE : pathSplitData p.data with ⟨hd, tl⟩
  rfl

/-- The activation target path splits back into the version directory
and the SDK root, and the version directory's basename is the version:
the round trip at the heart of `activate`/`active_version`. -/
theorem activate_target_roundtrip (cache v : String) (hv : isVersion v = true) :
    pathSplit (posixJoin (posixJoin cache v) "google_appengine")
      = (posixJoin cache v, "google_appengine") ∧
    pathBasename (posixJoin cache v) = v := by
  obtain ⟨hvne, hvns, lc, hlast, hdig⟩ := isVersion_shape v hv
  obtain ⟨ys, hx, hys, hxlast⟩ := posixJoin_version cache v hv
  have hlc : ¬ lc = '/' := isDigit_ne_slash lc hdig
  have hxlast2 : (posixJoin cache v).data.getLast? = some lc := by
    rw [hxlast]; exact hlast
  have hxne : (posixJoin cache v).data ≠ [] := by
    rw [hx]
    intro hcon
    exact hvne (List.append_eq_nil.1 hcon).2
  have hxs : startsWithSlash "google_appengine" = false := by decide
  have hxnil : ¬ posixJoin cache v = "" := by
    intro hcon
    exact hxne (by rw [hcon])
  have hxsl : ¬ endsWithSlash (posixJoin cache v) = true := by
    unfold endsWithSlash
    rw [hxlast2]
    simpa using hlc
  have htgt : (posixJoin (posixJoin cache v) "google_appengine").data
      = (posixJoin cache v).data ++ '/' :: "google_appengine".data := by
    unfold posixJoin
    rw [hxs]
    simp only [Bool.false_eq_true, if_false]
    rw [if_neg (by
      intro hcon
      rcases hcon with hcon | hcon
      · exact hxnil hcon
      · exact hxsl hcon)]
    rw [String.data_append, String.data_append]
    simp
  have hgd : ∀ c ∈ "google_appengine".data, ¬ c = '/' := by decide
  constructor
  · rw [pathSplit_eq, htgt, pathSplitData_append _ _ lc hgd hxlast2 hlc]
  · unfold pathBasename
    rw [pathSplit_eq]
    show (⟨(pathSplitData (posixJoin cache v).data).2⟩ : String) = v
    rw [hx, pathSplitData_tail ys v.data hvns hys]

/-! ### Symlink-table lemmas -/

theorem lookupLink_cons_self (ls : List (String × String)) (link t : String) :
    lookupLink ((link, t) :: ls) link = some t := by
  unfold lookupLink
  rw [if_pos rfl]

theorem lookupLink_cons_ne (ls : List (String × String)) (link t p : String)
    (h : ¬ link = p) : lookupLink ((link, t) :: ls) p = lookupLink ls p := by
  show (if link = p then some t else lookupLink ls p) = lookupLink ls p
  rw [if_neg h]

/-- Looking up after removing every entry for `link`. -/
theorem lookupLink_filter (ls : List (String × String)) (link p : String) :
    lookupLink (ls.filter (fun e => !(e.1 = link))) p
      = if p = link then none else lookupLink ls p := by
  induction ls with
  | nil =>
    by_cases hp : p = link
    · rw [if_pos hp]; rfl
    · rw [if_neg hp]; rfl
  | cons e tl ih =>
    obtain ⟨k, tv⟩ := e
    by_cases hk : k = link
    · rw [List.filter_cons, if_neg (by simp [hk]), ih]
      by_cases hp : p = link
      · rw [if_pos hp, if_pos hp]
      · rw [if_neg hp, if_neg hp, lookupLink_cons_ne]
        intro hkp
        exact hp (by rw [← hkp, hk])
    · rw [List.filter_cons, if_pos (by simp [hk])]
      by_cases hkp : k = p
      · rw [show lookupLink ((k, tv) :: tl.filter (fun e => !(e.1 = link))) p = some tv from by
          unfold lookupLink; rw [if_pos hkp]]
        rw [if_neg (by intro hp; exact hk (by rw [hkp, hp]))]
        unfold lookupLink
        rw [if_pos hkp]
      · rw [lookupLink_cons_ne _ _ _ _ hkp, ih, lookupLink_cons_ne _ _ _ _ hkp]

/-- When no entry for `link` exists, the removal filter is the
identity. -/
theorem lookupLink_none_filter (ls : List (String × String)) (link : String)
    (h : lookupLink ls link = none) : ls.filter (fun e => !(e.1 = link)) = ls := by
  induction ls with
  | nil => rfl
  | cons e tl ih =>
    obtain ⟨k, tv⟩ := e
    by_cases hk : k = link
    · rw [show lookupLink ((k, tv) :: tl) link = some tv from by
        unfold lookupLink; rw [if_pos hk]] at h
      cases h
    · rw [lookupLink_cons_ne _ _ _ _ hk] at h
      rw [List.filter_cons, if_pos (by simp [hk]), ih h]

/-! ### Characterizing `_activate` -/

/-- Resolution of a token that already matches the strict pattern is the
identity (rule 2 of the resolver). -/
theorem resolveVersion_of_isVersion (w : World) (lines : List String) (v : String)
    (hv : isVersion v = true) : Env.resolveVersion w lines v = .ok (some v) := by
  have hlat : ¬ v = "latest" := by
    intro h; rw [h] at hv; exact absurd hv (by decide)
  unfold Env.resolveVersion
  rw [if_neg hlat, if_pos hv]

/-- The world after a successful `_activate` of the concrete version
`v`: the configured link points at the target, all older entries for the
link are gone, and nothing else changed. -/
def postActivate (sys : Sys) (c : Config) (w : World) (v : String) : World :=
  { w with links :=
      (Env.sdk_link sys c,
       posixJoin (posixJoin (Env.cache_dir sys c) v) "google_appengine")
      :: w.links.filter (fun e => !(e.1 = Env.sdk_link sys c)) }

/-- `_activate` on a strict-pattern version always succeeds, replacing
any pre-existing link (the `EEXIST` retry). -/
theorem activate0_of_isVersion (sys : Sys) (c : Config) (lines : List String)
    (v : String) (w : World) (hv : isVersion v = true) :
    Env.activate0 sys c lines v w =
      (.ok (posixJoin (posixJoin (Env.cache_dir sys c) v) "google_appengine"),
       postActivate sys c w v) := by
  unfold Env.activate0 postActivate
  rw [resolveVersion_of_isVersion w lines v hv]
  cases hL : lookupLink w.links (Env.sdk_link sys c) with
  | none =>
    have hfilter := lookupLink_none_filter w.links (Env.sdk_link sys c) hL
    simp only [symlinkW, readLink, hL, Option.isSome_none, Bool.false_eq_true, if_false,
      hfilter]
  | some t =>
    have hfl : lookupLink (w.links.filter (fun e => !(e.1 = Env.sdk_link sys c)))
        (Env.sdk_link sys c) = none := by
      rw [lookupLink_filter, if_pos rfl]
    simp only [symlinkW, unlinkW, readLink, hL, Option.isSome_some, if_true, hfl,
      Option.isSome_none, Bool.false_eq_true, if_false]

/-- `active_version` immediately after `_activate` reports exactly the
activated version. -/
theorem active_version_post (sys : Sys) (c : Config) (w : World) (v : String)
    (hv : isVersion v = true) :
    Env.active_version sys c (postActivate sys c w v) = .ok (some v) := by
  obtain ⟨hsplit, hbase⟩ := activate_target_roundtrip (Env.cache_dir sys c) v hv
  unfold Env.active_version
  rw [show readLink (postActivate sys c w v) (Env.sdk_link sys c)
      = some (posixJoin (posixJoin (Env.cache_dir sys c) v) "google_appengine") from
    lookupLink_cons_self _ _ _]
  show (match pathSplit (posixJoin (posixJoin (Env.cache_dir sys c) v) "google_appengine") with
        | (dname, fname) =>
          if fname = "google_appengine" then Except.ok (some (pathBasename dname))
          else Except.error Err.assertionError) = Except.ok (some v)
  rw [hsplit]
  show (if ("google_appengine" : String) = "google_appengine"
        then Except.ok (some (pathBasename (posixJoin (Env.cache_dir sys c) v)))
        else Except.error Err.assertionError) = Except.ok (some v)
  rw [if_pos rfl, hbase]

/-- The `activate` command on a strict-pattern version: succeeds, prints
that version, and leaves the world with the fresh link. -/
theorem activate_of_isVersion (sys : Sys) (c : Config) (lines : List String)
    (v : String) (w : World) (hv : isVersion v = true) :
    Env.activate sys c lines v w = (.ok (some v), postActivate sys c w v) := by
  unfold Env.activate
  rw [activate0_of_isVersion sys c lines v w hv]
  show (match Env.active_version sys c (postActivate sys c w v) with
        | Except.error e => (Except.error e, postActivate sys c w v)
        | Except.ok vv => (Except.ok vv, postActivate sys c w v))
      = (Except.ok (some v), postActivate sys c w v)
  rw [active_version_post sys c w v hv]

/-- The Linux fixture the repository's tests use: `$HOME=/home/foo`,
default preferences. -/
def sysLinux : Sys := ⟨"/home/foo", "/", "linux"⟩

/-- C5: `activate(v)` followed by `currentActive()` returns `v` for any
strict-pattern version and any prior link state, and re-running
`activate` for the same version succeeds again (idempotent; an existing
link is replaced rather than raising "already exists"). -/
theorem claim_activate_then_current_active :
    ∀ (sys : Sys) (c : Config) (w : World) (lines : List String) (v : String),
      isVersion v = true →
      ∃ w1, Env.activate sys c lines v w = (.ok (some v), w1) ∧
        Env.active_version sys c w1 = .ok (some v) ∧
        ∃ w2, Env.activate sys c lines v w1 = (.ok (some v), w2) := by
  intro sys c w lines v hv
  exact ⟨postActivate sys c w v, activate_of_isVersion sys c lines v w hv,
    active_version_post sys c w v hv,
    postActivate sys c (postActivate sys c w v) v,
    activate_of_isVersion sys c lines v (postActivate sys c w v) hv⟩

/-- C5 witness: activating `1.9.57` over a stale pre-existing link in
the tests' Linux environment. -/
theorem claim_activate_then_current_active_witness :
    isVersion "1.9.57" = true ∧
    (∃ w1, Env.activate sysLinux defaultConfig []  "1.9.57"
        ⟨[("/home/foo/google_appengine", "/stale/target")], some [], none, []⟩
        = (.ok (some "1.9.57"), w1) ∧
      Env.active_version sysLinux defaultConfig w1 = .ok (some "1.9.57") ∧
      ∃ w2, Env.activate sysLinux defaultConfig [] "1.9.57" w1
        = (.ok (some "1.9.57"), w2)) :=
  ⟨by decide,
   claim_activate_then_current_active sysLinux defaultConfig
     ⟨[("/home/foo/google_appengine", "/stale/target")], some [], none, []⟩
     [] "1.9.57" (by decide)⟩

/-- C2 (counterexample): with a link already present, direct creation
fails with `EEXIST`; the code then removes the existing link — at that
intermediate step NO link exists at the configured location — and only
afterwards creates the new one.  The replacement is therefore
unlink-then-link, not link-then-unlink-old. -/
theorem claim_replace_ordering_counterexample :
    (symlinkW "/new/target" "/home/foo/google_appengine"
        ⟨[("/home/foo/google_appengine", "/old/target")], some [], none, []⟩).1
      = .error (.osError .eexist) ∧
    readLink
      (unlinkW "/home/foo/google_appengine"
        ⟨[("/home/foo/google_appengine", "/old/target")], some [], none, []⟩).2
      "/home/foo/google_appengine" = none ∧
    Env.activate0 sysLinux defaultConfig [] "1.9.57"
        ⟨[("/home/foo/google_appengine", "/old/target")], some [], none, []⟩
      = (.ok "/home/foo/.sdkswitcher/1.9.57/google_appengine",
         ⟨[("/home/foo/google_appengine",
            "/home/foo/.sdkswitcher/1.9.57/google_appengine")],
          some [], none, []⟩) :=
  ⟨rfl, rfl, by decide⟩

/-- C2 (amended): for every activation over a pre-existing link, the
replacement funnels through `os.unlink` followed by a retried
`os.symlink`, and at the intermediate state (after the unlink, before
the retry) no link exists at the configured location. -/
theorem claim_replace_is_unlink_then_link :
    ∀ (sys : Sys) (c : Config) (lines : List String) (v : String) (w : World) (t : String),
      isVersion v = true →
      readLink w (Env.sdk_link sys c) = some t →
      ∃ wMid, unlinkW (Env.sdk_link sys c) w = (.ok (), wMid) ∧
        readLink wMid (Env.sdk_link sys c) = none ∧
        Env.activate0 sys c lines v w
          = (.ok (posixJoin (posixJoin (Env.cache_dir sys c) v) "google_appengine"),
             (symlinkW (posixJoin (posixJoin (Env.cache_dir sys c) v) "google_appengine")
               (Env.sdk_link sys c) wMid).2) := by
  intro sys c lines v w t hv hL
  have hmidL : readLink
      { w with links := w.links.filter (fun e => !(e.1 = Env.sdk_link sys c)) }
      (Env.sdk_link sys c) = none := by
    show lookupLink (w.links.filter (fun e => !(e.1 = Env.sdk_link sys c)))
      (Env.sdk_link sys c) = none
    rw [lookupLink_filter, if_pos rfl]
  refine ⟨{ w with links := w.links.filter (fun e => !(e.1 = Env.sdk_link sys c)) },
    ?_, hmidL, ?_⟩
  · unfold unlinkW
    rw [hL]
    rfl
  · rw [activate0_of_isVersion sys c lines v w hv]
    unfold symlinkW
    rw [hmidL]
    rfl

/-- C2 witness: the amended theorem applied over a concrete pre-existing
link. -/
theorem claim_replace_is_unlink_then_link_witness :
    isVersion "1.9.57" = true ∧
    readLink ⟨[("/home/foo/google_appengine", "/old/target")], some [], none, []⟩
      (Env.sdk_link sysLinux defaultConfig) = some "/old/target" ∧
    (∃ wMid,
      unlinkW (Env.sdk_link sysLinux defaultConfig)
        ⟨[("/home/foo/google_appengine", "/old/target")], some [], none, []⟩
        = (.ok (), wMid) ∧
      readLink wMid (Env.sdk_link sysLinux defaultConfig) = none ∧
      Env.activate0 sysLinux defaultConfig [] "1.9.57"
          ⟨[("/home/foo/google_appengine", "/old/target")], some [], none, []⟩
        = (.ok (posixJoin (posixJoin (Env.cache_dir sysLinux defaultConfig) "1.9.57")
              "google_appengine"),
           (symlinkW (posixJoin (posixJoin (Env.cache_dir sysLinux defaultConfig) "1.9.57")
                "google_appengine")
             (Env.sdk_link sysLinux defaultConfig) wMid).2)) :=
  ⟨by decide, rfl,
   claim_replace_is_unlink_then_link sysLinux defaultConfig [] "1.9.57"
     ⟨[("/home/foo/google_appengine", "/old/target")], some [], none, []⟩
     "/old/target" (by decide) rfl⟩

/-- C8 (counterexample): with the link pointing at
`/cache/1.9.57/google_appengine`, `active_version` returns `1.9.57`
— the name of the target's *parent* directory — whereas the name of the
target's parent-of-parent directory is `cache`. -/
theorem claim_active_version_parent_counterexample :
    Env.active_version sysLinux defaultConfig
        ⟨[("/home/foo/google_appengine", "/cache/1.9.57/google_appengine")], none, none, []⟩
      = .ok (some "1.9.57") ∧
    pathBasename (pathDirname (pathDirname "/cache/1.9.57/google_appengine")) = "cache" ∧
    ¬ ("1.9.57" : String) = "cache" :=
  ⟨rfl, rfl, by decide⟩

/-- C8 (amended): `currentActive` reports "no active version" exactly
when the link is missing; a link whose target's trailing segment is not
the SDK root fails the assertion; otherwise it returns the name of the
target's parent directory (the last-but-one path segment). -/
theorem claim_active_version_cases :
    ∀ (sys : Sys) (c : Config) (w : World),
      (readLink w (Env.sdk_link sys c) = none → Env.active_version sys c w = .ok none) ∧
      (∀ t, readLink w (Env.sdk_link sys c) = some t →
        ((pathSplit t).2 ≠ "google_appengine" →
          Env.active_version sys c w = .error .assertionError) ∧
        ((pathSplit t).2 = "google_appengine" →
          Env.active_version sys c w = .ok (some (pathBasename (pathDirname t))))) := by
  intro sys c w
  constructor
  · intro h
    unfold Env.active_version
    rw [h]
  · intro t h
    have hred : Env.active_version sys c w
        = (if (pathSplit t).2 = "google_appengine"
           then Except.ok (some (pathBasename (pathSplit t).1))
           else Except.error Err.assertionError) := by
      unfold Env.active_version
      rw [h]
    constructor
    · intro hne
      rw [hred, if_neg hne]
    · intro heq
      rw [hred, if_pos heq]
      rfl

/-- C8 witness: the three cases at concrete worlds. -/
theorem claim_active_version_cases_witness :
    Env.active_version sysLinux defaultConfig ⟨[], none, none, []⟩ = .ok none ∧
    Env.active_version sysLinux defaultConfig
      ⟨[("/home/foo/google_appengine", "/cache/1.9.57/bogus")], none, none, []⟩
      = .error .assertionError ∧
    Env.active_version sysLinux defaultConfig
      ⟨[("/home/foo/google_appengine", "/cache/1.9.57/google_appengine")], none, none, []⟩
      = .ok (some (pathBasename (pathDirname "/cache/1.9.57/google_appengine"))) :=
  ⟨(claim_active_version_cases sysLinux defaultConfig ⟨[], none, none, []⟩).1 rfl,
   (((claim_active_version_cases sysLinux defaultConfig
      ⟨[("/home/foo/google_appengine", "/cache/1.9.57/bogus")], none, none, []⟩).2
      "/cache/1.9.57/bogus" rfl).1 (by decide)),
   (((claim_active_version_cases sysLinux defaultConfig
      ⟨[("/home/foo/google_appengine", "/cache/1.9.57/google_appengine")], none, none, []⟩).2
      "/cache/1.9.57/google_appengine" rfl).2 (by decide))⟩

/-! ### Download fallback (C3) and resolution-failure atomicity (C9) -/

/-- C3 (counterexample): an HTTP 500 from the primary URL — an
unexpected status other than "not found" — still triggers the
deprecated-URL fallback (here succeeding), rather than being propagated
as fatal without a retry. -/
theorem claim_download_fallback_counterexample :
    Env.download0
      (fun u =>
        if u = Env.sdk_url "1.9.57" then .httpError 500
        else if u = Env.sdk_url_deprecated "1.9.57" then .ok "zipbytes"
        else .urlError)
      "1.9.57"
    = (.ok ("google_appengine_1.9.57.zip", "zipbytes"),
       [Env.sdk_url "1.9.57", Env.sdk_url_deprecated "1.9.57"]) := by decide

/-- C3 (amended): an HTTP-error response of ANY status from the primary
URL triggers exactly one retry against the deprecated-URL template
(version with dots removed as path segment, dotted version in the
filename); a failing deprecated-URL request is propagated without
further requests; a successful primary request performs no retry; and a
non-HTTP network failure on the primary request is propagated without
the fallback. -/
theorem claim_download_fallback_behavior :
    ∀ (net : String → HttpResp) (v : String),
      (∀ code, net (Env.sdk_url v) = .httpError code →
        (Env.download0 net v).2 = [Env.sdk_url v, Env.sdk_url_deprecated v] ∧
        (∀ body suffix, net (Env.sdk_url_deprecated v) = .ok body →
          safe_filename (Env.sdk_url_deprecated v) = .ok suffix →
          (Env.download0 net v).1 = .ok (suffix, body)) ∧
        (∀ d, net (Env.sdk_url_deprecated v) = .httpError d →
          (Env.download0 net v).1 = .error (.httpError d)) ∧
        (net (Env.sdk_url_deprecated v) = .urlError →
          (Env.download0 net v).1 = .error .urlError)) ∧
      (∀ body, net (Env.sdk_url v) = .ok body →
        (Env.download0 net v).2 = [Env.sdk_url v]) ∧
      (net (Env.sdk_url v) = .urlError →
        Env.download0 net v = (.error .urlError, [Env.sdk_url v])) ∧
      Env.sdk_url_deprecated v
        = "https://storage.googleapis.com/appengine-sdks/deprecated/"
          ++ removeDots v ++ "/google_appengine_" ++ v ++ ".zip" := by
  intro net v
  refine ⟨?_, ?_, ?_, rfl⟩
  · intro code hp
    refine ⟨?_, ?_, ?_, ?_⟩
    · simp only [Env.download0, hp]
      cases hd : net (Env.sdk_url_deprecated v) with
      | ok body =>
        cases hs : safe_filename (Env.sdk_url_deprecated v) with
        | ok suffix => rfl
        | error u => rfl
      | httpError d => rfl
      | urlError => rfl
    · intro body suffix hd hs
      simp only [Env.download0, hp, hd, hs]
    · intro d hd
      simp only [Env.download0, hp, hd]
    · intro hd
      simp only [Env.download0, hp, hd]
  · intro body hp
    simp only [Env.download0, hp]
    cases hs : safe_filename (Env.sdk_url v) with
    | ok suffix => rfl
    | error u => rfl
  · intro hp
    simp only [Env.download0, hp]

/-- C3 witness: the amended theorem applied to a network where the
primary request returns status 500 and the deprecated request serves the
archive. -/
theorem claim_download_fallback_behavior_witness :
    (fun u =>
        if u = Env.sdk_url "1.8.0" then HttpResp.httpError 500
        else if u = Env.sdk_url_deprecated "1.8.0" then HttpResp.ok "zip"
        else HttpResp.urlError) (Env.sdk_url "1.8.0") = .httpError 500 ∧
    (Env.download0
      (fun u =>
        if u = Env.sdk_url "1.8.0" then HttpResp.httpError 500
        else if u = Env.sdk_url_deprecated "1.8.0" then HttpResp.ok "zip"
        else HttpResp.urlError) "1.8.0").2
      = [Env.sdk_url "1.8.0", Env.sdk_url_deprecated "1.8.0"] :=
  ⟨by decide,
   ((claim_download_fallback_behavior
      (fun u =>
        if u = Env.sdk_url "1.8.0" then HttpResp.httpError 500
        else if u = Env.sdk_url_deprecated "1.8.0" then HttpResp.ok "zip"
        else HttpResp.urlError) "1.8.0").1 500 (by decide)).1⟩

/-- C9: when resolution fails with `BadVersionString`, every invoking
command (`activate`, `download`, `install`, `remove`) propagates the
error and leaves the world — symlinks, cache contents, temp files and
persisted configuration — exactly unchanged. -/
theorem claim_resolution_failure_no_state_change :
    ∀ (sys : Sys) (c : Config) (net : String → HttpResp) (lines : List String)
      (w : World) (token : String) (e : Err),
      Env.resolveVersion w lines token = .error e →
      Env.activate sys c lines token w = (.error e, w) ∧
      Env.download net lines token w = (.error e, w) ∧
      Env.install sys c net lines token w = (.error e, w) ∧
      Env.remove sys c lines token w = (.error e, w) := by
  intro sys c net lines w token e h
  refine ⟨?_, ?_, ?_, ?_⟩
  · simp only [Env.activate, Env.activate0, h]
  · simp only [Env.download, h]
  · simp only [Env.install, h]
  · simp only [Env.remove, h]

/-- C9 witness: the ambiguous fragment `57` with two matching installed
versions aborts all four commands without touching the world. -/
theorem claim_resolution_failure_no_state_change_witness :
    Env.resolveVersion ⟨[], some [("1.9.57", true), ("1.8.57", true)], none, []⟩ [] "57"
      = .error .badVersionString ∧
    Env.activate sysLinux defaultConfig [] "57"
        ⟨[], some [("1.9.57", true), ("1.8.57", true)], none, []⟩
      = (.error .badVersionString,
         ⟨[], some [("1.9.57", true), ("1.8.57", true)], none, []⟩) ∧
    Env.remove sysLinux defaultConfig [] "57"
        ⟨[], some [("1.9.57", true), ("1.8.57", true)], none, []⟩
      = (.error .badVersionString,
         ⟨[], some [("1.9.57", true), ("1.8.57", true)], none, []⟩) :=
  ⟨by decide,
   (claim_resolution_failure_no_state_change sysLinux defaultConfig (fun _ => .urlError) []
     ⟨[], some [("1.9.57", true), ("1.8.57", true)], none, []⟩ "57" .badVersionString
     (by decide)).1,
   (claim_resolution_failure_no_state_change sysLinux defaultConfig (fun _ => .urlError) []
     ⟨[], some [("1.9.57", true), ("1.8.57", true)], none, []⟩ "57" .badVersionString
     (by decide)).2.2.2⟩

/-! ### Re-pointing the link root (C4) -/

/-- `_activate` touches the symlink table only at the configured link
location. -/
theorem activate0_other_links (sys : Sys) (c : Config) (lines : List String)
    (tok : String) (w : World) (p : String) (hp : ¬ p = Env.sdk_link sys c) :
    readLink (Env.activate0 sys c lines tok w).2 p = readLink w p := by
  unfold Env.activate0
  cases hres : Env.resolveVersion w lines tok with
  | error e => rfl
  | ok ov =>
    cases ov with
    | none => rfl
    | some v =>
      cases hL : lookupLink w.links (Env.sdk_link sys c) with
      | none =>
        simp only [symlinkW, readLink, hL, Option.isSome_none, Bool.false_eq_true, if_false]
        exact lookupLink_cons_ne _ _ _ _ (fun hEq => hp hEq.symm)
      | some t =>
        have hfl : lookupLink (w.links.filter (fun e => !(e.1 = Env.sdk_link sys c)))
            (Env.sdk_link sys c) = none := by
          rw [lookupLink_filter, if_pos rfl]
        simp only [symlinkW, unlinkW, readLink, hL, Option.isSome_some, if_true, hfl,
          Option.isSome_none, Bool.false_eq_true, if_false]
        rw [lookupLink_cons_ne _ _ _ _ (fun hEq => hp hEq.symm), lookupLink_filter,
          if_neg hp]

/-- The `activate` command mutates the world exactly as `_activate`
does (`active_version` only reads). -/
theorem activate_world (sys : Sys) (c : Config) (lines : List String) (tok : String)
    (w : World) :
    (Env.activate sys c lines tok w).2 = (Env.activate0 sys c lines tok w).2 := by
  unfold Env.activate
  cases hA : Env.activate0 sys c lines tok w with
  | mk r w1 =>
    cases r with
    | error e => rfl
    | ok t =>
      cases hv : Env.active_version sys c w1 with
      | error e => simp [hv]
      | ok vv => simp [hv]

/-- So does the `activate` command. -/
theorem activate_other_links (sys : Sys) (c : Config) (lines : List String)
    (tok : String) (w : World) (p : String) (hp : ¬ p = Env.sdk_link sys c) :
    readLink (Env.activate sys c lines tok w).2 p = readLink w p := by
  rw [activate_world]
  exact activate0_other_links sys c lines tok w p hp

/-- A successful `_activate` leaves the configured link pointing at the
returned target. -/
theorem activate0_ok_link (sys : Sys) (c : Config) (lines : List String)
    (tok t : String) (w w1 : World)
    (h : Env.activate0 sys c lines tok w = (.ok t, w1)) :
    readLink w1 (Env.sdk_link sys c) = some t := by
  unfold Env.activate0 at h
  cases hres : Env.resolveVersion w lines tok with
  | error e => rw [hres] at h; cases h
  | ok ov =>
    rw [hres] at h
    cases ov with
    | none => cases h
    | some v =>
      cases hL : lookupLink w.links (Env.sdk_link sys c) with
      | none =>
        simp only [symlinkW, readLink, hL, Option.isSome_none, Bool.false_eq_true,
          if_false, Prod.mk.injEq, Except.ok.injEq] at h
        obtain ⟨ht, hw⟩ := h
        rw [← hw]
        show lookupLink _ (Env.sdk_link sys c) = some t
        rw [lookupLink_cons_self, ht]
      | some t0 =>
        have hfl : lookupLink (w.links.filter (fun e => !(e.1 = Env.sdk_link sys c)))
            (Env.sdk_link sys c) = none := by
          rw [lookupLink_filter, if_pos rfl]
        simp only [symlinkW, unlinkW, readLink, hL, Option.isSome_some, if_true, hfl,
          Option.isSome_none, Bool.false_eq_true, if_false, Prod.mk.injEq,
          Except.ok.injEq] at h
        obtain ⟨ht, hw⟩ := h
        rw [← hw]
        show lookupLink _ (Env.sdk_link sys c) = some t
        rw [lookupLink_cons_self, ht]

/-- A failed `_activate` makes the whole `activate` command fail with
the same error and world. -/
theorem activate_eq_of_activate0_error (sys : Sys) (c : Config) (lines : List String)
    (tok : String) (w w1 : World) (e : Err)
    (h : Env.activate0 sys c lines tok w = (.error e, w1)) :
    Env.activate sys c lines tok w = (.error e, w1) := by
  unfold Env.activate
  rw [h]

/-- A successful `activate` command leaves the configured link set. -/
theorem activate_ok_link (sys : Sys) (c : Config) (lines : List String)
    (tok : String) (vv : Option String) (w w1 : World)
    (h : Env.activate sys c lines tok w = (.ok vv, w1)) :
    ∃ t, readLink w1 (Env.sdk_link sys c) = some t := by
  have hw : (Env.activate0 sys c lines tok w).2 = w1 := by
    rw [← activate_world, h]
  cases hA : Env.activate0 sys c lines tok w with
  | mk r w2 =>
    rw [hA] at hw
    cases r with
    | error e =>
      rw [activate_eq_of_activate0_error sys c lines tok w w2 e hA] at h
      simp at h
    | ok t =>
      have hw2 : w2 = w1 := hw
      rw [← hw2]
      exact ⟨t, activate0_ok_link sys c lines tok t w w2 hA⟩

/-- An `active_version` that reports an active version implies the link
exists. -/
theorem active_version_some_link (sys : Sys) (c : Config) (w : World) (s : String)
    (h : Env.active_version sys c w = .ok (some s)) :
    ∃ t, readLink w (Env.sdk_link sys c) = some t := by
  unfold Env.active_version at h
  cases hL : readLink w (Env.sdk_link sys c) with
  | none => rw [hL] at h; cases h
  | some t => exact ⟨t, rfl⟩

/-- `unlinkW` error case: the world is unchanged and the link was
absent. -/
theorem unlinkW_error (p : String) (w w2 : World) (e : Err)
    (h : unlinkW p w = (.error e, w2)) : w2 = w ∧ readLink w p = none := by
  unfold unlinkW at h
  cases hL : readLink w p with
  | none =>
    rw [hL] at h
    simp only [Option.isSome_none, Bool.false_eq_true, if_false, Prod.mk.injEq] at h
    exact ⟨h.2.symm, rfl⟩
  | some t =>
    rw [hL] at h
    simp only [Option.isSome_some, if_true, Prod.mk.injEq] at h
    cases h.1

/-- `unlinkW` success case: exactly the entries for `p` are removed. -/
theorem unlinkW_ok (p : String) (w w2 : World) (u : Unit)
    (h : unlinkW p w = (.ok u, w2)) :
    w2 = { w with links := w.links.filter (fun e => !(e.1 = p)) } := by
  unfold unlinkW at h
  cases hL : readLink w p with
  | none =>
    rw [hL] at h
    simp only [Option.isSome_none, Bool.false_eq_true, if_false, Prod.mk.injEq] at h
    cases h.1
  | some t =>
    rw [hL] at h
    simp only [Option.isSome_some, if_true, Prod.mk.injEq] at h
    exact h.2.symm

/-- Case equations for `Env.link`. -/
theorem link_eq_error_active (sys : Sys) (c : Config) (lines : List String)
    (dest : String) (w : World) (e : Err)
    (h : Env.active_version sys c w = .error e) :
    Env.link sys c lines dest w = (.error e, w) := by
  simp only [Env.link, h]

theorem link_eq_no_active (sys : Sys) (c : Config) (lines : List String)
    (dest : String) (w : World)
    (h : Env.active_version sys c w = .ok none) :
    Env.link sys c lines dest w
      = (.ok { c with link := dest }, saveConfigW { c with link := dest } w) := by
  simp only [Env.link, h]

theorem link_eq_no_change (sys : Sys) (c : Config) (lines : List String)
    (dest : String) (w : World) (v : String)
    (h : Env.active_version sys c w = .ok (some v))
    (hc : ¬ (v ≠ "" ∧ Env.sdk_link sys c ≠ Env.sdk_link sys { c with link := dest })) :
    Env.link sys c lines dest w
      = (.ok { c with link := dest }, saveConfigW { c with link := dest } w) := by
  simp only [Env.link, h]
  rw [if_neg hc]

theorem link_eq_activate_error (sys : Sys) (c : Config) (lines : List String)
    (dest : String) (w w1 : World) (v : String) (e : Err)
    (h : Env.active_version sys c w = .ok (some v))
    (hc : v ≠ "" ∧ Env.sdk_link sys c ≠ Env.sdk_link sys { c with link := dest })
    (hact : Env.activate sys { c with link := dest } lines v w = (.error e, w1)) :
    Env.link sys c lines dest w = (.error e, w1) := by
  simp only [Env.link, h]
  rw [if_pos hc, hact]

theorem link_eq_old_empty (sys : Sys) (c : Config) (lines : List String)
    (dest : String) (w w1 : World) (v : String) (vv : Option String)
    (h : Env.active_version sys c w = .ok (some v))
    (hc : v ≠ "" ∧ Env.sdk_link sys c ≠ Env.sdk_link sys { c with link := dest })
    (hact : Env.activate sys { c with link := dest } lines v w = (.ok vv, w1))
    (hold : ¬ Env.sdk_link sys c ≠ "") :
    Env.link sys c lines dest w
      = (.ok { c with link := dest }, saveConfigW { c with link := dest } w1) := by
  simp only [Env.link, h]
  rw [if_pos hc, hact]
  simp only []
  rw [if_neg hold]

theorem link_eq_unlink_error (sys : Sys) (c : Config) (lines : List String)
    (dest : String) (w w1 w2 : World) (v : String) (vv : Option String) (e : Err)
    (h : Env.active_version sys c w = .ok (some v))
    (hc : v ≠ "" ∧ Env.sdk_link sys c ≠ Env.sdk_link sys { c with link := dest })
    (hact : Env.activate sys { c with link := dest } lines v w = (.ok vv, w1))
    (hold : Env.sdk_link sys c ≠ "")
    (hun : unlinkW (Env.sdk_link sys c) w1 = (.error e, w2)) :
    Env.link sys c lines dest w = (.error e, w2) := by
  simp only [Env.link, h]
  rw [if_pos hc, hact]
  simp only []
  rw [if_pos hold, hun]

theorem link_eq_success (sys : Sys) (c : Config) (lines : List String)
    (dest : String) (w w1 w2 : World) (v : String) (vv : Option String) (u : Unit)
    (h : Env.active_version sys c w = .ok (some v))
    (hc : v ≠ "" ∧ Env.sdk_link sys c ≠ Env.sdk_link sys { c with link := dest })
    (hact : Env.activate sys { c with link := dest } lines v w = (.ok vv, w1))
    (hold : Env.sdk_link sys c ≠ "")
    (hun : unlinkW (Env.sdk_link sys c) w1 = (.ok u, w2)) :
    Env.link sys c lines dest w
      = (.ok { c with link := dest }, saveConfigW { c with link := dest } w2) := by
  simp only [Env.link, h]
  rw [if_pos hc, hact]
  simp only []
  rw [if_pos hold, hun]

/-- C4: the `link` operation (re-pointing where the symlink lives)
mutates the in-memory preference first and activates at the NEW location
only when there is a currently active version and the computed link path
changed; the old link is removed only after that activation succeeds.
Consequently (a) any failure leaves the previous link intact, (b) when
there is nothing to move only the preference is saved, and (c) on
success the new location carries a link, the old one is gone, and the
new preference is persisted. -/
theorem claim_link_repoint_safety :
    ∀ (sys : Sys) (c : Config) (lines : List String) (dest : String) (w : World),
      (∀ e wF, Env.link sys c lines dest w = (.error e, wF) →
        readLink wF (Env.sdk_link sys c) = readLink w (Env.sdk_link sys c)) ∧
      (∀ v, Env.active_version sys c w = .ok v →
        (v = none ∨ v = some "" ∨
         Env.sdk_link sys c = Env.sdk_link sys { c with link := dest }) →
        Env.link sys c lines dest w
          = (.ok { c with link := dest }, saveConfigW { c with link := dest } w)) ∧
      (∀ s wF cF, Env.active_version sys c w = .ok (some s) → ¬ s = "" →
        Env.sdk_link sys c ≠ Env.sdk_link sys { c with link := dest } →
        Env.sdk_link sys c ≠ "" →
        Env.link sys c lines dest w = (.ok cF, wF) →
        cF = { c with link := dest } ∧
        wF.saved = some { c with link := dest } ∧
        readLink wF (Env.sdk_link sys c) = none ∧
        (∃ tgt, readLink wF (Env.sdk_link sys { c with link := dest }) = some tgt)) := by
  intro sys c lines dest w
  refine ⟨?_, ?_, ?_⟩
  · -- (a) failure leaves the old link untouched
    intro e wF hF
    cases hav : Env.active_version sys c w with
    | error e2 =>
      rw [link_eq_error_active sys c lines dest w e2 hav] at hF
      simp only [Prod.mk.injEq, Except.error.injEq] at hF
      rw [← hF.2]
    | ok version =>
      cases version with
      | none =>
        rw [link_eq_no_active sys c lines dest w hav] at hF
        simp at hF
      | some v =>
        by_cases hc : v ≠ "" ∧ Env.sdk_link sys c ≠ Env.sdk_link sys { c with link := dest }
        · have hother : readLink (Env.activate sys { c with link := dest } lines v w).2
              (Env.sdk_link sys c) = readLink w (Env.sdk_link sys c) :=
            activate_other_links sys { c with link := dest } lines v w
              (Env.sdk_link sys c) hc.2
          cases hact : Env.activate sys { c with link := dest } lines v w with
          | mk r w1 =>
            rw [hact] at hother
            cases r with
            | error e2 =>
              rw [link_eq_activate_error sys c lines dest w w1 v e2 hav hc hact] at hF
              simp only [Prod.mk.injEq, Except.error.injEq] at hF
              rw [← hF.2]
              exact hother
            | ok vv =>
              by_cases hold : Env.sdk_link sys c ≠ ""
              · cases hun : unlinkW (Env.sdk_link sys c) w1 with
                | mk ru w2 =>
                  cases ru with
                  | error e2 =>
                    rw [link_eq_unlink_error sys c lines dest w w1 w2 v vv e2 hav hc hact
                      hold hun] at hF
                    simp only [Prod.mk.injEq, Except.error.injEq] at hF
                    obtain ⟨hw2, _⟩ := unlinkW_error _ _ _ _ hun
                    rw [← hF.2, hw2]
                    exact hother
                  | ok u =>
                    rw [link_eq_success sys c lines dest w w1 w2 v vv u hav hc hact
                      hold hun] at hF
                    simp at hF
              · rw [link_eq_old_empty sys c lines dest w w1 v vv hav hc hact hold] at hF
                simp at hF
        · rw [link_eq_no_change sys c lines dest w v hav hc] at hF
          simp at hF
  · -- (b) nothing to move: only the preference is written
    intro v hav hskip
    rcases hskip with rfl | rfl | hsame
    · exact link_eq_no_active sys c lines dest w hav
    · refine link_eq_no_change sys c lines dest w "" hav ?_
      intro hcon
      exact hcon.1 rfl
    · cases v with
      | none => exact link_eq_no_active sys c lines dest w hav
      | some s =>
        refine link_eq_no_change sys c lines dest w s hav ?_
        intro hcon
        exact hcon.2 hsame
  · -- (c) success with a change
    intro s wF cF hav hs hdiff hold hF
    have hc : s ≠ "" ∧ Env.sdk_link sys c ≠ Env.sdk_link sys { c with link := dest } :=
      ⟨hs, hdiff⟩
    cases hact : Env.activate sys { c with link := dest } lines s w with
    | mk r w1 =>
      cases r with
      | error e2 =>
        rw [link_eq_activate_error sys c lines dest w w1 s e2 hav hc hact] at hF
        simp at hF
      | ok vv =>
        cases hun : unlinkW (Env.sdk_link sys c) w1 with
        | mk ru w2 =>
          cases ru with
          | error e2 =>
            -- impossible: the old link still exists in w1
            obtain ⟨t0, ht0⟩ := active_version_some_link sys c w s hav
            have hother : readLink (Env.activate sys { c with link := dest } lines s w).2
                (Env.sdk_link sys c) = readLink w (Env.sdk_link sys c) :=
              activate_other_links sys { c with link := dest } lines s w
                (Env.sdk_link sys c) hc.2
            rw [hact] at hother
            obtain ⟨_, hnone⟩ := unlinkW_error _ _ _ _ hun
            rw [hother, ht0] at hnone
            cases hnone
          | ok u =>
            rw [link_eq_success sys c lines dest w w1 w2 s vv u hav hc hact hold hun] at hF
            simp only [Prod.mk.injEq, Except.ok.injEq] at hF
            obtain ⟨hcF, hwF⟩ := hF
            have hw2 := unlinkW_ok _ _ _ _ hun
            refine ⟨hcF.symm, by rw [← hwF]; rfl, ?_, ?_⟩
            · rw [← hwF]
              show readLink (saveConfigW { c with link := dest } w2) (Env.sdk_link sys c)
                = none
              rw [hw2]
              show lookupLink (w1.links.filter (fun e => !(e.1 = Env.sdk_link sys c)))
                (Env.sdk_link sys c) = none
              rw [lookupLink_filter, if_pos rfl]
            · obtain ⟨tgt, htgt⟩ := activate_ok_link sys { c with link := dest } lines s
                vv w w1 hact
              refine ⟨tgt, ?_⟩
              rw [← hwF]
              show readLink (saveConfigW { c with link := dest } w2)
                (Env.sdk_link sys { c with link := dest }) = some tgt
              rw [hw2]
              show lookupLink (w1.links.filter (fun e => !(e.1 = Env.sdk_link sys c)))
                (Env.sdk_link sys { c with link := dest }) = some tgt
              rw [lookupLink_filter, if_neg (fun hEq => hc.2 hEq.symm)]
              exact htgt

/-- C4 witness: moving the link root from the home directory to `/opt`
with version `1.9.57` active. -/
theorem claim_link_repoint_safety_witness :
    Env.active_version sysLinux defaultConfig
        ⟨[("/home/foo/google_appengine",
           "/home/foo/.sdkswitcher/1.9.57/google_appengine")],
         some [("1.9.57", true)], none, []⟩ = .ok (some "1.9.57") ∧
    ((⟨"/opt", ""⟩ : Config) = { defaultConfig with link := "/opt" } ∧
     (⟨[("/opt/google_appengine",
         "/home/foo/.sdkswitcher/1.9.57/google_appengine")],
       some [("1.9.57", true)], some ⟨"/opt", ""⟩, []⟩ : World).saved
        = some { defaultConfig with link := "/opt" } ∧
     readLink
        ⟨[("/opt/google_appengine",
           "/home/foo/.sdkswitcher/1.9.57/google_appengine")],
         some [("1.9.57", true)], some ⟨"/opt", ""⟩, []⟩
        (Env.sdk_link sysLinux defaultConfig) = none ∧
     (∃ tgt, readLink
        ⟨[("/opt/google_appengine",
           "/home/foo/.sdkswitcher/1.9.57/google_appengine")],
         some [("1.9.57", true)], some ⟨"/opt", ""⟩, []⟩
        (Env.sdk_link sysLinux { defaultConfig with link := "/opt" }) = some tgt)) :=
  ⟨by decide,
   (claim_link_repoint_safety sysLinux defaultConfig [] "/opt"
      ⟨[("/home/foo/google_appengine",
         "/home/foo/.sdkswitcher/1.9.57/google_appengine")],
       some [("1.9.57", true)], none, []⟩).2.2
     "1.9.57"
     ⟨[("/opt/google_appengine",
        "/home/foo/.sdkswitcher/1.9.57/google_appengine")],
      some [("1.9.57", true)], some ⟨"/opt", ""⟩, []⟩
     ⟨"/opt", ""⟩
     (by decide) (by decide) (by decide) (by decide) (by decide)⟩

/-- C10: `safe_filename` keeps the URL's final path segment restricted
to letters, digits, hyphen, underscore and single dots, collapsing runs
of other characters and repeated dots and trimming edge dots, raising
`ValueError` on an empty result: the spec's three examples, plus the
general wellformedness of every successful result. -/
theorem claim_safe_filename_sanitization :
    safe_filename "https://host/path/google_appengine_1.9.57.zip"
      = .ok "google_appengine_1.9.57.zip" ∧
    safe_filename "foo/../../..bar..zip.." = .ok "bar.zip" ∧
    safe_filename "///" = .error () ∧
    (∀ url f, safe_filename url = .ok f →
      f ≠ "" ∧ (∀ c ∈ f.data, allowedCh c = true) ∧ f.data.Chain' noTwoDots ∧
      f.data.head? ≠ some '.' ∧ f.data.getLast? ≠ some '.') :=
  ⟨rfl, rfl, rfl, safe_filename_wf⟩

/-- C10 witness: the general clause applied at a concrete URL. -/
theorem claim_safe_filename_sanitization_witness :
    safe_filename "https://host/a.zip" = .ok "a.zip" ∧ ("a.zip" : String) ≠ "" :=
  ⟨rfl, (claim_safe_filename_sanitization.2.2.2 "https://host/a.zip" "a.zip" rfl).1⟩

/-- C7 witness: the unique-match clause at the spec's example. -/
theorem claim_fragment_substring_resolution_witness :
    ("57" : String) ≠ "latest" ∧ isVersion "57" = false ∧
    Env.resolveVersion ⟨[], some [("1.9.57", true)], none, []⟩ [] "57"
      = .ok (some "1.9.57") :=
  ⟨by decide, by decide,
   ((claim_fragment_substring_resolution.1 ⟨[], some [("1.9.57", true)], none, []⟩ [] "57"
      (by decide) (by decide)).2.1 "1.9.57" (by decide)).1⟩

/-- C6 witness: the ordering clause on `{1.9.5, 1.9.40}`, where numeric
component order differs from lexicographic order. -/
theorem claim_installed_versions_listing_witness :
    (∀ name ∈ markedChildren ⟨[], some [("1.9.5", true), ("1.9.40", true)], none, []⟩,
      isVersion name = true) ∧
    (Env.installedVersions
      ⟨[], some [("1.9.5", true), ("1.9.40", true)], none, []⟩).Pairwise
      (fun a b => triLE (versionTriple a) (versionTriple b)) :=
  ⟨by decide,
   (claim_installed_versions_listing.1
     ⟨[], some [("1.9.5", true), ("1.9.40", true)], none, []⟩ (by decide)).1⟩
